import Mathlib

/-!
Verification of the minuteos `lib-nvram` record store against its
natural-language specification.

The development is a shallow embedding of the sources under
`src/targets/all/nvram/`.  The flash medium is modelled at byte level
(`List Nat`, each entry a byte value), with 32-bit words read
little-endian, matching the persisted layout section of the spec.  The
single-word write medium is modelled (the `#else` branches of
`NVRAM_FLASH_DOUBLE_WRITE`, which is the configuration of the host
target): `Flash::WriteWord`/`Flash::Write` AND the written bits into the
medium and succeed iff the result equals the requested pattern (the
documented flash-driver contract), and `Flash::ShredWord` clears a word
to zero.

Loops whose termination is semantic in the C++ are compiled to
structural recursion on an explicit fuel argument; each definition picks
a fuel that dominates the possible number of iterations (positions
strictly advance by at least one byte per step, so a page's byte count
plus a small constant always suffices).
-/

namespace Nvram

/-- The all-ones 32-bit word `~0u`. -/
def ones32 : Nat := 4294967295

/-- RequiredAligned from Layout.h with WriteAlignment = 4:
`(size + 3) & ~3`. -/
def align4 (n : Nat) : Nat := (n + 3) / 4 * 4

/-- Byte read; out-of-range reads yield erased flash (0xFF). -/
def byteAt (d : List Nat) (i : Nat) : Nat := d.getD i 255

/-- Little-endian 32-bit word read at byte offset `i`. -/
def wordAt (d : List Nat) (i : Nat) : Nat :=
  byteAt d i + 256 * byteAt d (i + 1) + 65536 * byteAt d (i + 2) +
    16777216 * byteAt d (i + 3)

/-- Little-endian byte decomposition of a 32-bit word. -/
def le4 (w : Nat) : List Nat :=
  [w % 256, w / 256 % 256, w / 65536 % 256, w / 16777216 % 256]

/-- Overwrite one byte (used to express the AND-result of a flash write). -/
def setByte (d : List Nat) (i b : Nat) : List Nat := d.set i b

/-- Flash byte write: bits can only be cleared, so the stored value is the
bitwise AND of the old and new byte (`Flash::Write` host emulation and the
flash driver contract of spec section 6). -/
def andByte (d : List Nat) (i b : Nat) : List Nat :=
  d.set i (Nat.land (byteAt d i) b)

/-- AND-write a run of bytes starting at offset `off`. -/
def andBytes (d : List Nat) (off : Nat) : List Nat → List Nat
  | [] => d
  | b :: bs => andBytes (andByte d off b) (off + 1) bs

/-- Check that a run of bytes at `off` equals `bs`. -/
def bytesEq (d : List Nat) (off : Nat) : List Nat → Bool
  | [] => true
  | b :: bs => byteAt d off == b && bytesEq d (off + 1) bs

/-- Flash::Write: AND the data into the medium; success iff the resulting
memory equals the requested pattern. -/
def flashWrite (d : List Nat) (off : Nat) (bs : List Nat) : List Nat × Bool :=
  let d' := andBytes d off bs
  (d', bytesEq d' off bs)

/-- Flash::WriteWord at byte offset `off`. -/
def flashWriteWord (d : List Nat) (off w : Nat) : List Nat × Bool :=
  flashWrite d off (le4 w)

/-- Flash::ShredWord: clear a 32-bit word to zero (cannot fail). -/
def shredWordAt (d : List Nat) (off : Nat) : List Nat :=
  andBytes d off [0, 0, 0, 0]

/-- Page.h VarGetLen: the length word stored immediately before a variable
record's first word. -/
def varGetLen (d : List Nat) (rec : Nat) : Nat := wordAt d (rec - 4)

/-- Page.h VarSkipLen: `RequiredAligned(payloadLen + 4)` computed in
32-bit arithmetic, so a free slot (`len = ~0u`) yields a skip of 4. -/
def varSkipLen (len : Nat) : Nat := align4 ((len + 4) % 4294967296)

/-- One NVRAM page: 32-bit id, 16-bit sequence, 16-bit record size
(0 = variable layout) and the payload bytes (`data[PagePayload]`); the
list length plays the role of the configuration constant PagePayload. -/
structure Page where
  id : Nat
  sequence : Nat
  recordSize : Nat
  data : List Nat
  deriving Repr, DecidableEq

/-- The fixed-record branch of the page loop in Page::FindForwardNextImpl
(Page.Search.cpp lines 53-76): scan while `rec + recordSize < pe`,
skipping shredded (first word 0) and free (first word all-ones) slots,
returning the offset and length of the first record whose first word
matches (`firstWord == 0` matches everything). -/
def scanFixed (d : List Nat) (rs key : Nat) : Nat → Nat → Option (Nat × Nat)
  | 0, _ => none
  | fuel + 1, rec =>
    if rec + rs < d.length then
      let first := wordAt d rec
      if first = 0 then scanFixed d rs key fuel (rec + rs)
      else if first ≠ ones32 ∧ (key = 0 ∨ first = key) then some (rec, rs)
      else scanFixed d rs key fuel (rec + rs)
    else none

/-- The variable-record branch of the page loop in
Page::FindForwardNextImpl (Page.Search.cpp lines 77-101): scan while
`rec < pe`, skipping zero-length slots, requiring `len != ~0u` and a
non-zero first word for a hit. -/
def scanVar (d : List Nat) (key : Nat) : Nat → Nat → Option (Nat × Nat)
  | 0, _ => none
  | fuel + 1, rec =>
    if rec < d.length then
      let len := varGetLen d rec
      if len = 0 then scanVar d key fuel (rec + varSkipLen len)
      else if len ≠ ones32 ∧ wordAt d rec ≠ 0 ∧ (key = 0 ∨ wordAt d rec = key) then
        some (rec, len)
      else scanVar d key fuel (rec + varSkipLen len)
    else none

/-- Fuel that dominates any scan of a page payload (positions advance by
at least one byte per step). -/
def pageFuel (d : List Nat) : Nat := d.length + 8

/-- Page::FindForwardNextImpl restricted to a single page: continue the
scan after record `prev`, or from the start of the page when `prev` is
`none`. -/
def pageFindNext (p : Page) (prev : Option Nat) (key : Nat) : Option (Nat × Nat) :=
  if p.recordSize ≠ 0 then
    let start := match prev with
      | none => 0
      | some r => r + p.recordSize
    scanFixed p.data p.recordSize key (pageFuel p.data) start
  else
    let start := match prev with
      | none => 4
      | some r => r + varSkipLen (varGetLen p.data r)
    scanVar p.data key (pageFuel p.data) start

/-- The fixed branch of Page::FindFree (Page.Storage.cpp lines 24-33):
first slot whose first word is all-ones, scanning while
`rec + recordSize <= pe`. -/
def findFreeFixed (d : List Nat) (rs : Nat) : Nat → Nat → Option Nat
  | 0, _ => none
  | fuel + 1, rec =>
    if rec + rs ≤ d.length then
      if wordAt d rec = ones32 then some rec
      else findFreeFixed d rs fuel (rec + rs)
    else none

/-- The variable branch of Page::FindFree (Page.Storage.cpp lines 34-45):
walk the length words from `data + 4`, returning the first position whose
length word is all-ones. -/
def findFreeVar (d : List Nat) : Nat → Nat → Option Nat
  | 0, _ => none
  | fuel + 1, rec =>
    if rec < d.length then
      let len := varGetLen d rec
      if len = ones32 then some rec
      else findFreeVar d fuel (rec + varSkipLen len)
    else none

/-- Page::FindFree. -/
def Page.findFree (p : Page) : Option Nat :=
  if p.recordSize ≠ 0 then findFreeFixed p.data p.recordSize (pageFuel p.data) 0
  else findFreeVar p.data (pageFuel p.data) 4

/-- The flash address of a record: index of its page in the store's page
list, plus the byte offset of its first word inside the page payload. -/
structure Loc where
  page : Nat
  off : Nat
  deriving Repr, DecidableEq

/-- Placeholder page returned by out-of-range accesses (an erased page:
empty id, no data). -/
def emptyPage : Page := { id := ones32, sequence := 0, recordSize := 0, data := [] }

/-- The record-store state: the pages holding records (in flash address
order, which is also the order of the unordered page enumeration
`Page::First`/`Page::FastEnum`), the number of pages the manager can
still allocate (abstraction of the free-slot/new-block search of
`Manager::NewPage`), the payload size used for newly allocated pages
(the configuration constant PagePayload), and the log of ids passed to
`Manager::Notify`. -/
structure Store where
  pages : List Page
  freshPages : Nat
  payloadSize : Nat
  notifications : List Nat
  deriving Repr, DecidableEq

def getPage (s : Store) (i : Nat) : Page := s.pages.getD i emptyPage

def setPageData (s : Store) (i : Nat) (d : List Nat) : Store :=
  { s with pages := s.pages.set i { getPage s i with data := d } }

/-- Manager::Notify appends the id to the notification log; per
Manager.cpp lines 539-548 every registered notifier with a matching key
fires exactly once per call, so the log length per id counts
notifications. -/
def notifyStore (s : Store) (id : Nat) : Store :=
  { s with notifications := s.notifications ++ [id] }

/-- Page::First via Page::FastEnum: the first page (in address order)
whose id matches. -/
def firstPageIdx (s : Store) (id : Nat) : Option Nat :=
  s.pages.findIdx? (fun p => p.id = id)

/-- Page::UnorderedNextImpl: the next page in address order with the same
id as page `i`. -/
def nextPageIdx (s : Store) (i : Nat) : Option Nat :=
  match (s.pages.drop (i + 1)).findIdx? (fun p => p.id = (getPage s i).id) with
  | none => none
  | some k => some (i + 1 + k)

/-- Page::FindForwardNextImpl with the unordered page chaining: search
page `i` from after `prev`, then continue across the following pages of
the same id.  Fuel bounds the page chain length. -/
def storeFindFrom (s : Store) (key : Nat) : Nat → Nat → Option Nat → Option (Loc × Nat)
  | 0, _, _ => none
  | fuel + 1, i, prev =>
    match pageFindNext (getPage s i) prev key with
    | some (off, len) => some (⟨i, off⟩, len)
    | none =>
      match nextPageIdx s i with
      | none => none
      | some j => storeFindFrom s key fuel j none

/-- Page::FindUnorderedFirst. -/
def findUnorderedFirst (s : Store) (id key : Nat) : Option (Loc × Nat) :=
  match firstPageIdx s id with
  | none => none
  | some i => storeFindFrom s key (s.pages.length + 1) i none

/-- Page::FindUnorderedNext: continue the search after the record at
`loc` (the containing page is recovered by `Page::FromPtrInline`, here
carried in the location). -/
def findUnorderedNext (s : Store) (loc : Loc) (key : Nat) : Option (Loc × Nat) :=
  storeFindFrom s key (s.pages.length + 1) loc.page (some loc.off)

/-- OVF_LT on 16-bit sequence numbers, per the spec's stated semantics
`(int16_t)(a - b) < 0`. -/
def ovfLt (a b : Nat) : Bool :=
  decide (32768 ≤ (a % 65536 + 65536 - b % 65536) % 65536)

/-- OVF_DIFF on 16-bit sequence numbers: `(int16_t)(a - b)` as an
integer. -/
def ovfDiff (a b : Nat) : Int :=
  let d := (a % 65536 + 65536 - b % 65536) % 65536
  if d < 32768 then (d : Int) else (d : Int) - 65536

/-- The newest-page accumulation of Page::Scan (Page.cpp lines 234-252):
walk the unordered chain, replacing the candidate whenever
`OVF_LT(newest->sequence, p->sequence)`. -/
def newestScan (s : Store) : Nat → Nat → Nat → Nat
  | 0, _, best => best
  | fuel + 1, i, best =>
    match nextPageIdx s i with
    | none => best
    | some j =>
      newestScan s fuel j
        (if ovfLt (getPage s best).sequence (getPage s j).sequence then j else best)

/-- Page::NewestFirst: the page of the given id with the overflow-aware
maximal sequence number (ties keep the first page encountered). -/
def newestPageIdx (s : Store) (id : Nat) : Option Nat :=
  match firstPageIdx s id with
  | none => none
  | some i => some (newestScan s (s.pages.length + 1) i i)

/-- Page::CompareAge (Page.cpp lines 30-40): records on different pages
compare by overflow-aware sequence difference; on the same page, older
records have lower addresses. -/
def compareAge (s : Store) (l1 l2 : Loc) : Int :=
  if l1.page ≠ l2.page then
    ovfDiff (getPage s l1.page).sequence (getPage s l2.page).sequence
  else (l1.off : Int) - (l2.off : Int)

/-- Page::ShredRecord on the single-word medium: `Flash::ShredWord(ptr)`,
clearing the record's first word. -/
def shredRecordStore (s : Store) (loc : Loc) : Store :=
  setPageData s loc.page (shredWordAt (getPage s loc.page).data loc.off)

/-- Read `n` payload bytes of page `i` starting at `off`. -/
def readBytes (s : Store) (i off n : Nat) : List Nat :=
  (((getPage s i).data).drop off).take n

def storeWordAt (s : Store) (loc : Loc) : Nat :=
  wordAt (getPage s loc.page).data loc.off

/-- The space-reservation loop of Page::WriteImpl for variable records on
the single-word medium (Page.Storage.cpp lines 324-343): write the length
word before the record; on failure shred it and advance one word. -/
def varReserve (requiredLength totalLength : Nat) :
    Nat → List Nat → Nat → List Nat × Option Nat
  | 0, d, _ => (d, none)
  | fuel + 1, d, free =>
    if free + requiredLength > d.length then (d, none)
    else
      let (d', ok) := flashWriteWord d (free - 4) totalLength
      if ok then (d', some free)
      else varReserve requiredLength totalLength fuel (shredWordAt d' (free - 4)) (free + 4)

/-- Page::WriteImpl, single-word medium (Page.Storage.cpp lines 313-358):
for fixed pages check the slot fits; for variable pages reserve the
length word; then write the payload (bytes after the first word) and the
first word last.  On any write failure, shred the first word and retry at
the next slot. -/
def writeImplGo (rs firstWord : Nat) (rest : List Nat) (totalLength : Nat) :
    Nat → List Nat → Nat → List Nat × Option (Nat × Nat)
  | 0, d, _ => (d, none)
  | fuel + 1, d, free =>
    if rs ≠ 0 then
      if free + rs > d.length then (d, none)
      else
        let (d1, ok1) := if totalLength ≤ 4 then (d, true) else flashWrite d (free + 4) rest
        if ok1 then
          let (d2, ok2) := flashWriteWord d1 free firstWord
          if ok2 then (d2, some (free, totalLength))
          else writeImplGo rs firstWord rest totalLength fuel (shredWordAt d2 free) (free + rs)
        else writeImplGo rs firstWord rest totalLength fuel (shredWordAt d1 free) (free + rs)
    else
      match varReserve (align4 totalLength) totalLength (pageFuel d) d free with
      | (d0, none) => (d0, none)
      | (d0, some free') =>
        let (d1, ok1) := if totalLength ≤ 4 then (d0, true) else flashWrite d0 (free' + 4) rest
        if ok1 then
          let (d2, ok2) := flashWriteWord d1 free' firstWord
          if ok2 then (d2, some (free', totalLength))
          else
            writeImplGo rs firstWord rest totalLength fuel (shredWordAt d2 free')
              (free' + varSkipLen totalLength)
        else
          writeImplGo rs firstWord rest totalLength fuel (shredWordAt d1 free')
            (free' + varSkipLen totalLength)

/-- Page::WriteImpl on the page at index `i` of the store. -/
def storeWriteImpl (s : Store) (i free firstWord : Nat) (rest : List Nat)
    (totalLength : Nat) : Store × Option (Loc × Nat) :=
  let p := getPage s i
  match writeImplGo p.recordSize firstWord rest totalLength (pageFuel p.data) p.data free with
  | (d', none) => (setPageData s i d', none)
  | (d', some (off, len)) => (setPageData s i d', some (⟨i, off⟩, len))

/-- The sequence-discovery fold of Manager::NewPage (Manager.cpp lines
196-224) flattened over the store's page list: overflow-aware maximum of
the sequences of pages with the requested id, then successor (defaulting
to 1), truncated to the 16-bit header field. -/
def storeNewSeq (s : Store) (id : Nat) : Nat :=
  let m := s.pages.foldl
    (fun seq p =>
      if p.id = id ∧ (seq = ones32 ∨ ovfLt (seq % 65536) p.sequence) then p.sequence
      else seq)
    ones32
  (if m = ones32 then 1 else m + 1) % 65536

/-- Page::New / Manager::NewPage for the flat record-store model: block
placement is abstracted to appending a fresh all-ones page (the
`freshPages` counter stands for the free-slot and new-block search);
the sequence number follows the Manager::NewPage computation.  Returns
the index of the new page, or `none` when allocation is impossible. -/
def storeNewPage (s : Store) (id recordSize : Nat) : Store × Option Nat :=
  if s.freshPages = 0 then (s, none)
  else
    let p : Page :=
      { id := id, sequence := storeNewSeq s id, recordSize := recordSize,
        data := List.replicate s.payloadSize 255 }
    ({ s with pages := s.pages ++ [p], freshPages := s.freshPages - 1 },
      some s.pages.length)

/-- The retry loop of Page::AddImpl (Page.Storage.cpp lines 128-153):
allocate a new page when there is no usable free slot or the layout does
not match, write, and on write failure restart with `free = NULL`. -/
def addImplGo (id firstWord : Nat) (rest : List Nat) (totalLength : Nat)
    (var noNotify : Bool) :
    Nat → Store → Option Nat → Option Nat → Store × Option (Loc × Nat)
  | 0, s, _, _ => (s, none)
  | fuel + 1, s, pIdx, free =>
    let requiredLength := align4 totalLength
    let needNew : Bool :=
      match pIdx, free with
      | some i, some f =>
        let p := getPage s i
        decide (f + requiredLength > p.data.length) ||
          (var && p.recordSize != 0) ||
          (!var && p.recordSize != 0 && decide (requiredLength > p.recordSize))
      | _, _ => true
    let next : Option (Store × Nat × Nat) :=
      if needNew then
        match storeNewPage s id (if var then 0 else requiredLength) with
        | (_, none) => none
        | (s', some j) => some (s', j, if var then 4 else 0)
      else
        match pIdx, free with
        | some i, some f => some (s, i, f)
        | _, _ => none
    match next with
    | none => (s, none)
    | some (s1, i, f) =>
      match storeWriteImpl s1 i f firstWord rest totalLength with
      | (s2, some r) =>
        ((if noNotify then s2 else notifyStore s2 id), some r)
      | (s2, none) =>
        addImplGo id firstWord rest totalLength var noNotify fuel s2 (some i) none

/-- Page::AddImpl (Page.Storage.cpp lines 116-154). -/
def addImpl (s : Store) (id firstWord : Nat) (rest : List Nat) (totalLength : Nat)
    (var noNotify : Bool) : Store × Option (Loc × Nat) :=
  let pIdx := newestPageIdx s id
  let free := pIdx.bind (fun i => (getPage s i).findFree)
  addImplGo id firstWord rest totalLength var noNotify (s.freshPages + 2) s pIdx free

/-- OffsetPackedData(res, 4): strip the 4-byte key prefix of a returned
span. -/
def offsetSpan4 : Option (Loc × Nat) → Option (Loc × Nat)
  | none => none
  | some (loc, len) => some (⟨loc.page, loc.off + 4⟩, len - 4)

/-- Page::AddFixedImpl(ID, Span): the record's first word is the first
word of the data, the rest follows, total length is the span length. -/
def addFixedImplSpan (s : Store) (id : Nat) (data : List Nat) : Store × Option (Loc × Nat) :=
  addImpl s id (wordAt data 0) (data.drop 4) data.length false false

/-- Page::AddVarImpl(ID, uint32_t, Span): total length is the 16-bit
truncation of `data.Length() + 4` (the LengthAndFlags length field). -/
def addVarImplKey (s : Store) (id firstWord : Nat) (data : List Nat) :
    Store × Option (Loc × Nat) :=
  let r := addImpl s id firstWord data ((data.length + 4) % 65536) true false
  (r.1, offsetSpan4 r.2)

/-- The duplicate-elimination loop of Page::ReplaceImpl (Page.Storage.cpp
lines 173-189): while another record with the key exists, shred the older
of the pair (by Page::CompareAge) and keep the newer. -/
def replaceDupLoop (key : Nat) : Nat → Store → Loc × Nat → Store × (Loc × Nat)
  | 0, s, rec => (s, rec)
  | fuel + 1, s, rec =>
    match findUnorderedNext s rec.1 key with
    | none => (s, rec)
    | some next =>
      if compareAge s rec.1 next.1 < 0 then
        replaceDupLoop key fuel (shredRecordStore s rec.1) next
      else
        replaceDupLoop key fuel (shredRecordStore s next.1) rec

/-- Fuel dominating the total number of records in the store (every
record of a page consumes at least one unit of that page's scan fuel). -/
def storeFuel (s : Store) : Nat :=
  s.pages.foldl (fun n p => n + pageFuel p.data) 0 + s.pages.length + 1

/-- Page::ReplaceImpl (Page.Storage.cpp lines 161-214): find the newest
record with the key (shredding older duplicates); if it already equals
the payload (fixed records may be longer), return it without writing;
otherwise add the new record with notification suppressed, shred the old
record only if the add succeeded, and notify. -/
def replaceImpl (s : Store) (id firstWord : Nat) (rest : List Nat) (totalLength : Nat)
    (var : Bool) : Store × Option (Loc × Nat) :=
  match findUnorderedFirst s id firstWord with
  | none => addImpl s id firstWord rest totalLength var false
  | some rec0 =>
    let sr := replaceDupLoop firstWord (storeFuel s) s rec0
    let s1 := sr.1
    let rcd := sr.2
    if (rcd.2 = totalLength ∨ (¬var ∧ rcd.2 > totalLength)) ∧
        (totalLength ≤ 4 ∨
          bytesEq (getPage s1 rcd.1.page).data (rcd.1.off + 4)
            (rest.take (totalLength - 4)) = true) then
      (s1, some rcd)
    else
      let ar := addImpl s1 id firstWord rest totalLength var true
      let s3 := match ar.2 with
        | some _ => shredRecordStore ar.1 rcd.1
        | none => ar.1
      (notifyStore s3 id, ar.2)

/-- Page::ReplaceVarImpl(ID, uint32_t, Span). -/
def replaceVarImplKey (s : Store) (id firstWord : Nat) (data : List Nat) :
    Store × Option (Loc × Nat) :=
  let r := replaceImpl s id firstWord data ((data.length + 4) % 65536) true
  (r.1, offsetSpan4 r.2)

/-- The shred loop of Page::Delete (Page.Storage.cpp lines 416-420). -/
def deleteLoop (key : Nat) : Nat → Store → Loc → Store
  | 0, s, _ => s
  | fuel + 1, s, loc =>
    let s' := shredRecordStore s loc
    match findUnorderedNext s' loc key with
    | none => s'
    | some (loc2, _) => deleteLoop key fuel s' loc2

/-- Page::Delete (Page.Storage.cpp lines 404-424): shred all records
found by the unordered search, then notify; return false without any
write or notification when no record is found. -/
def pageDelete (s : Store) (id key : Nat) : Store × Bool :=
  match findUnorderedFirst s id key with
  | none => (s, false)
  | some (loc, _) => (notifyStore (deleteLoop key (storeFuel s) s loc) id, true)

/-- The simulation pass of Page::MoveRecords (Page.Storage.cpp lines
449-471): walk the source records and check every one would fit the
destination. -/
def moveSim (s : Store) (si di freeMax : Nat) : Nat → Option Nat → Nat → Bool
  | 0, _, _ => false
  | fuel + 1, prev, testFree =>
    match pageFindNext (getPage s si) prev 0 with
    | none => true
    | some (off, len) =>
      if (getPage s di).recordSize ≠ 0 then
        if testFree + (getPage s di).recordSize > freeMax ∨ len > (getPage s di).recordSize then
          false
        else moveSim s si di freeMax fuel (some off) (testFree + (getPage s di).recordSize)
      else
        let required := align4 (len + 4)
        if testFree - 4 + required > freeMax then false
        else moveSim s si di freeMax fuel (some off) (testFree + required)

/-- The move pass of Page::MoveRecords (Page.Storage.cpp lines 473-495).
The counter mirrors the C++ local `int moved = 0`, which no statement of
the function increments. -/
def moveGo (s : Store) (si di : Nat) : Nat → Option Nat → Nat → Nat → Store × Bool × Nat
  | 0, _, _, moved => (s, false, moved)
  | fuel + 1, prev, free, moved =>
    match pageFindNext (getPage s si) prev 0 with
    | none => (s, true, moved)
    | some (off, len) =>
      if free < (getPage s di).data.length then
        match storeWriteImpl s di free (storeWordAt s ⟨si, off⟩)
            (readBytes s si (off + 4) (len - 4)) len with
        | (s', some (loc2, _)) =>
          let s'' := shredRecordStore s' ⟨si, off⟩
          let stride := if (getPage s di).recordSize ≠ 0 then (getPage s di).recordSize
            else varSkipLen len
          moveGo s'' si di fuel (some off) (loc2.off + stride) moved
        | (s', none) => (s', false, moved)
      else (s, false, moved)

/-- Page::MoveRecords (Page.Storage.cpp lines 429-506): simulate, then
move record by record (shredding each source record after its copy is
written), and notify only when the `moved` counter is non-zero. -/
def moveRecords (s : Store) (si di limit : Nat) : Store × Bool :=
  match (getPage s di).findFree with
  | none => (s, false)
  | some free =>
    let freeMax0 := (getPage s di).data.length
    let freeMax := if limit ≠ 0 ∧ free + limit < freeMax0 then free + limit else freeMax0
    if moveSim s si di freeMax (pageFuel (getPage s si).data) none free then
      let r := moveGo s si di (pageFuel (getPage s si).data) none free 0
      (if r.2.2 ≠ 0 then notifyStore r.1 (getPage s si).id else r.1, r.2.1)
    else (s, false)

/-! ### Record enumeration as lists

The scan functions above return the first hit; for specification and
proof we also collect the full list of hits of the same walks.  The list
versions follow the identical recursion, so the find functions are the
heads of the lists (proved below). -/

/-- All hits of the `scanFixed` walk. -/
def scanFixedList (d : List Nat) (rs key : Nat) : Nat → Nat → List (Nat × Nat)
  | 0, _ => []
  | fuel + 1, rec =>
    if rec + rs < d.length then
      let first := wordAt d rec
      if first = 0 then scanFixedList d rs key fuel (rec + rs)
      else if first ≠ ones32 ∧ (key = 0 ∨ first = key) then
        (rec, rs) :: scanFixedList d rs key fuel (rec + rs)
      else scanFixedList d rs key fuel (rec + rs)
    else []

/-- All hits of the `scanVar` walk. -/
def scanVarList (d : List Nat) (key : Nat) : Nat → Nat → List (Nat × Nat)
  | 0, _ => []
  | fuel + 1, rec =>
    if rec < d.length then
      let len := varGetLen d rec
      if len = 0 then scanVarList d key fuel (rec + varSkipLen len)
      else if len ≠ ones32 ∧ wordAt d rec ≠ 0 ∧ (key = 0 ∨ wordAt d rec = key) then
        (rec, len) :: scanVarList d key fuel (rec + varSkipLen len)
      else scanVarList d key fuel (rec + varSkipLen len)
    else []

/-- All hits of `pageFindNext` on one page. -/
def pageListFrom (p : Page) (prev : Option Nat) (key : Nat) : List (Nat × Nat) :=
  if p.recordSize ≠ 0 then
    let start := match prev with
      | none => 0
      | some r => r + p.recordSize
    scanFixedList p.data p.recordSize key (pageFuel p.data) start
  else
    let start := match prev with
      | none => 4
      | some r => r + varSkipLen (varGetLen p.data r)
    scanVarList p.data key (pageFuel p.data) start

/-- All hits of the store-level walk `storeFindFrom`. -/
def storeListFrom (s : Store) (key : Nat) : Nat → Nat → Option Nat → List (Loc × Nat)
  | 0, _, _ => []
  | fuel + 1, i, prev =>
    (pageListFrom (getPage s i) prev key).map (fun e => (⟨i, e.1⟩, e.2)) ++
      (match nextPageIdx s i with
        | none => []
        | some j => storeListFrom s key fuel j none)

/-- All records the unordered enumeration reaches for a page id and key,
in enumeration order. -/
def storeMatchList (s : Store) (id key : Nat) : List (Loc × Nat) :=
  match firstPageIdx s id with
  | none => []
  | some i => storeListFrom s key (s.pages.length + 1) i none

/-- All records the unordered enumeration reaches strictly after the
record at `loc`. -/
def storeListAfter (s : Store) (loc : Loc) (key : Nat) : List (Loc × Nat) :=
  storeListFrom s key (s.pages.length + 1) loc.page (some loc.off)

/-! ### Well-formedness predicates used as theorem hypotheses -/

/-- No length word anywhere on the page is one of the four values just
below `~0u`, whose 32-bit `VarSkipLen` is 0 or 4: such corrupted lengths
make the C++ scan loop forever or walk into a just-shredded word
(every genuine length is bounded by the page size).  Preserved by
shredding, since a word containing a zeroed byte is below the excluded
range. -/
def noStuck (d : List Nat) : Prop :=
  ∀ j, j < d.length → wordAt d j < 4294967292 ∨ wordAt d j = ones32

instance (d : List Nat) : Decidable (noStuck d) := by
  unfold noStuck; infer_instance

/-- Shape constraints of a well-formed page: variable pages have no
degenerate length words; fixed record sizes are at least one word (they
are produced as `RequiredAligned(totalLength)`). -/
def pageWf (p : Page) : Prop :=
  (p.recordSize = 0 → noStuck p.data) ∧ (p.recordSize ≠ 0 → 4 ≤ p.recordSize)

instance (p : Page) : Decidable (pageWf p) := by
  unfold pageWf; infer_instance

def storeWf (s : Store) : Prop := ∀ p ∈ s.pages, pageWf p

instance (s : Store) : Decidable (storeWf s) := by
  unfold storeWf; infer_instance

/-- All payload bytes are byte values. -/
def bytesLt256 (s : Store) : Prop := ∀ p ∈ s.pages, ∀ b ∈ p.data, b < 256

instance (s : Store) : Decidable (bytesLt256 s) := by
  unfold bytesLt256; infer_instance

/-- No record reached by the enumeration straddles the end of its page
payload (in the C++ such a record would read and shred bytes of the
following page). -/
def matchesInRange (s : Store) (id key : Nat) : Prop :=
  ∀ e ∈ storeMatchList s id key, e.1.off + 4 ≤ (getPage s e.1.page).data.length

instance (s : Store) (id key : Nat) : Decidable (matchesInRange s id key) := by
  unfold matchesInRange; infer_instance

/-- The free space of the newest page of the id (where Page::AddImpl
writes) is still erased: every byte from the free position to the end of
the payload is 0xFF. -/
def tailClean (s : Store) (id : Nat) : Prop :=
  match newestPageIdx s id with
  | none => True
  | some i =>
    match (getPage s i).findFree with
    | none => True
    | some f => ∀ j, f ≤ j → j < (getPage s i).data.length → byteAt (getPage s i).data j = 255

instance (s : Store) (id : Nat) : Decidable (tailClean s id) := by
  unfold tailClean
  split
  · infer_instance
  · split
    · infer_instance
    · infer_instance

/-! ### Settings facade (Settings.cpp / Settings.h) -/

/-- The mutable per-setting state of class Setting (Settings.h lines
128-133): the version snapshot, the notify flag, and the cached `value`
span (an invalid span modelled as `none`). -/
structure SettingState where
  version : Nat
  notify : Bool
  value : Option (Loc × Nat)
  deriving Repr, DecidableEq

/-- Setting::SetImpl (Settings.cpp lines 87-90).  The C++ body is
`return value = spec.Set(value);` where the parameter `value : Span`
shadows the member `Setting::value`; the assignment therefore targets the
local parameter and the member cache is not modified.  `spec.Set` routes
through `Settings::Set` and `VariableUniqueKeyStorage::Set` to
`Page::ReplaceVar(pageId, key, data)`. -/
def settingSetImpl (s : Store) (st : SettingState) (pageId key : Nat) (v : List Nat) :
    Store × SettingState × Option (Loc × Nat) :=
  let r := replaceVarImplKey s pageId key v
  (r.1, st, r.2)

/-! ### Manager::NewPage sequence discovery (Manager.cpp lines 196-226) -/

/-- A page header as seen by the Manager::NewPage scan. -/
structure PageHdr where
  id : Nat
  sequence : Nat
  deriving Repr, DecidableEq

/-- A block as seen by the Manager::NewPage scan: validity gate
(Block::IsValid) plus the page headers. -/
structure BlockHdr where
  valid : Bool
  pages : List PageHdr
  deriving Repr, DecidableEq

/-- The inner page loop of Manager::NewPage (Manager.cpp lines 207-221):
accumulate the overflow-aware maximal sequence of pages with the
requested id; `break` out of the block at the first empty page
(`id == ~0u`) when no free slot was found yet. -/
def npScanPages (id : Nat) : List PageHdr → Nat → Bool → Nat × Bool
  | [], seq, free => (seq, free)
  | p :: ps, seq, free =>
    if p.id = id then
      npScanPages id ps
        (if seq = ones32 ∨ ovfLt (seq % 65536) p.sequence then p.sequence else seq) free
    else if ¬free ∧ p.id = ones32 then (seq, true)
    else npScanPages id ps seq free

/-- The outer block loop of Manager::NewPage (Manager.cpp lines 202-222),
over the used blocks: skip invalid blocks. -/
def npScanBlocks (id : Nat) : List BlockHdr → Nat → Bool → Nat × Bool
  | [], seq, free => (seq, free)
  | b :: bs, seq, free =>
    if b.valid then
      let r := npScanPages id b.pages seq free
      npScanBlocks id bs r.1 r.2
    else npScanBlocks id bs seq free

/-- The 16-bit sequence number written into the new page header by
Manager::NewPage: `seq = seq == ~0u ? 1 : seq + 1` followed by
`seq & MASK(16)` when packing `w0` (Manager.cpp lines 224-226). -/
def newPageSeq16 (bs : List BlockHdr) (id : Nat) : Nat :=
  let m := (npScanBlocks id bs ones32 false).1
  (if m = ones32 then 1 else m + 1) % 65536

/-- The sequences of the pages with the requested id in one block. -/
def pageIdSeqs (id : Nat) (ps : List PageHdr) : List Nat :=
  (ps.filter (fun p => p.id = id)).map (fun p => p.sequence)

/-- The sequences of all pages with the requested id on valid blocks. -/
def idSequences (bs : List BlockHdr) (id : Nat) : List Nat :=
  (bs.filter (fun b => b.valid)).flatMap (fun b => pageIdSeqs id b.pages)

/-- The sequence accumulation step of the Manager::NewPage scan. -/
def ovfAcc (seq q : Nat) : Nat :=
  if seq = ones32 ∨ ovfLt (seq % 65536) q then q else seq

/-- Well-formedness of a block for the NewPage scan: no page with the
requested id sits after an empty page (pages of a block are allocated
front to back, so empty pages form a suffix). -/
def noIdAfterEmpty (id : Nat) : List PageHdr → Prop
  | [] => True
  | p :: ps => (p.id = ones32 → ∀ q ∈ ps, q.id ≠ id) ∧ noIdAfterEmpty id ps

instance (id : Nat) : ∀ ps, Decidable (noIdAfterEmpty id ps)
  | [] => inferInstanceAs (Decidable True)
  | p :: ps =>
    have : Decidable (noIdAfterEmpty id ps) := instDecidableNoIdAfterEmpty id ps
    inferInstanceAs (Decidable (_ ∧ _))

/-- Position of a 16-bit sequence inside the half-window anchored at
`base`. -/
def relW (base q : Nat) : Nat := (q + 65536 - base % 65536) % 65536

/-! ### Manager::Initialize block classification (Manager.cpp lines 79-151) -/

/-- The magic sentinel "NVRM", little-endian. -/
def blockMagic : Nat := 0x4D52564E

/-- A block as seen by Manager::Initialize.  `restEmpty` models
`Block::CheckEmpty(&generation + 1)` (everything after the header still
erased), `pagesErasable` models `Block::CheckPages().flags ==
Block::PagesErasable` (every page erasable), and `formatOk` is an oracle
for the success of the flash writes of `Block::Format` (transient write
failure per the flash driver contract).  `CheckEmpty`, `CheckPages`,
`IsErasable` and `Format` of the current Block class are declared but not
implemented under src/, so these helpers are modelled from the spec:
CheckEmpty verifies the range is all-ones, CheckPages reports whether
every page is erasable, IsErasable tests `magic == 0`, Format writes the
magic then the generation and shreds both on failure. -/
structure InitBlock where
  magic : Nat
  generation : Nat
  restEmpty : Bool
  pagesErasable : Bool
  formatOk : Bool
  deriving Repr, DecidableEq

/-- Block::CheckEmpty(): the whole block (header included) is erased. -/
def blockEmpty (b : InitBlock) : Bool :=
  b.magic == ones32 && b.generation == ones32 && b.restEmpty

/-- Block states derived from the header (spec section 3). -/
inductive BlockState where
  | empty
  | valid
  | erasable
  | halfInit
  | corrupted
  deriving Repr, DecidableEq

/-- Derive the block state from the header: Empty (all bits 1), Valid
(magic sentinel and a programmed generation), Erasable (magic zero),
HalfInitialized (magic sentinel, generation still all-ones), Corrupted
(anything else). -/
def blockState (b : InitBlock) : BlockState :=
  if blockEmpty b then .empty
  else if b.magic = 0 then .erasable
  else if b.magic = blockMagic ∧ b.generation ≠ ones32 then .valid
  else if b.magic = blockMagic then .halfInit
  else .corrupted

/-- One iteration of the Manager::Initialize block loop (Manager.cpp
lines 79-151), single-word medium: heal half-initialized blocks whose
remainder is still empty, shred those that cannot be healed, mark
all-erasable valid blocks erasable, leave empty and erasable blocks
alone, and either tolerate (IgnoreCorrupted) or shred corrupted
blocks. -/
def initBlock (ignoreCorrupted : Bool) (b : InitBlock) : InitBlock :=
  if b.magic = blockMagic then
    if b.generation = ones32 then
      if b.restEmpty ∧ b.formatOk then { b with generation := 1 }
      else { b with magic := 0, generation := 0 }
    else if b.pagesErasable then { b with magic := 0 }
    else b
  else if blockEmpty b then b
  else if b.magic = 0 then b
  else if ignoreCorrupted then b
  else { b with magic := 0, generation := 0 }

/-- The effect of `Flash::Erase` on a block (the InitFlags::Reset path,
Manager.cpp lines 73-77): everything becomes all-ones. -/
def eraseInitBlock (b : InitBlock) : InitBlock :=
  { b with
    magic := ones32, generation := ones32, restEmpty := true,
    pagesErasable := false }

/-- Manager::Initialize restricted to the per-block state transitions:
optionally erase everything (Reset), then classify and heal each block.
Each loop iteration of the C++ touches only the block at hand, so the
iteration order (high to low) does not affect the per-block result. -/
def managerInit (reset ignoreCorrupted : Bool) (bs : List InitBlock) : List InitBlock :=
  (if reset then bs.map eraseInitBlock else bs).map (initBlock ignoreCorrupted)

/-! ### Garbage collector scheduling (Manager.cpp lines 341-420) -/

/-- The configured low-water mark (Layout.h, default 4). -/
def PagesKeptFree : Nat := 4

/-- A collector registration as ordered in `Manager::collectors` (key is
irrelevant to the scheduling claim). -/
structure Reg where
  level : Nat
  deriving Repr, DecidableEq

/-- One logged collector invocation: the registration level and the value
of `pagesAvailable` at the moment of the call. -/
structure CallEv where
  level : Nat
  pa : Nat
  deriving Repr, DecidableEq

/-- The registration walk of Manager::Collect (Manager.cpp lines
393-420): stop at the first level above 0 when non-destructive; drain
level-0 collectors (invoke until they return no page); invoke higher
levels until the first page, then move on.  The oracle `outs` lists, per
registration, whether each successive invocation yields a page;
`ErasePage` does not change `pagesAvailable`, so all invocations of one
pass observe the same value. -/
def collectGo (destructive : Bool) (pa : Nat) :
    List Reg → List (List Bool) → List CallEv × Nat
  | [], _ => ([], 0)
  | r :: rs, outss =>
    if ¬destructive ∧ r.level ≠ 0 then ([], 0)
    else
      let outcomes := outss.headD []
      let here : List CallEv × Nat :=
        if r.level = 0 then
          let k := (outcomes.takeWhile (fun b => b)).length
          (List.replicate (k + 1) ⟨r.level, pa⟩, k)
        else
          ([⟨r.level, pa⟩], if outcomes.headD false then 1 else 0)
      let rest := collectGo destructive pa rs outss.tail
      (here.1 ++ rest.1, here.2 + rest.2)

/-- The collector task state: `pagesAvailable`, `blocksToErase`, and the
log of collector invocations so far. -/
structure CState where
  pa : Nat
  blocksToErase : Bool
  log : List CallEv
  deriving Repr, DecidableEq

/-- The environment of one iteration of the Manager::Collector loop:
the net page gain of `EraseBlocks` (and pages allocated by other tasks
while it suspends), pages allocated by other tasks during `async_yield`,
whether other tasks or this pass's `ErasePage` calls marked blocks
erasable, and the collector outcomes of this pass. -/
structure EnvStep where
  eraseGain : Nat
  eraseAlloc : Nat
  yieldAlloc : Nat
  othersMarkErase : Bool
  collectSetsErase : Bool
  outs : List (List Bool)

/-- The `await(EraseBlocks)` step of the Manager::Collector loop: when
blocks are pending, the sweep frees pages (net of pages other tasks
allocate while the erase suspends) and clears `blocksToErase`. -/
def afterErase (e : EnvStep) (st : CState) : CState :=
  if st.blocksToErase then
    { st with pa := st.pa + e.eraseGain - e.eraseAlloc, blocksToErase := false }
  else st

/-- The `async_yield()` step: other tasks can only allocate pages
(decreasing `pagesAvailable`) and mark blocks erasable. -/
def afterYield (e : EnvStep) (st : CState) : CState :=
  { st with
    pa := st.pa - e.yieldAlloc,
    blocksToErase := st.blocksToErase ∨ e.othersMarkErase }

/-- The loop of the Manager::Collector task (Manager.cpp lines 367-387):
await EraseBlocks when pending, exit once `pagesAvailable` reaches
PagesKeptFree, yield, run a destructive collection, and exit when it
collected nothing and no erase is pending.  Cooperative suspension points
(await, yield) are where other tasks run; between suspension points only
this task mutates the state. -/
def collectorLoop (regs : List Reg) : List EnvStep → CState → CState
  | [], st => st
  | e :: rest, st =>
    let st1 := afterErase e st
    if st1.pa ≥ PagesKeptFree then st1
    else
      let st2 := afterYield e st1
      let pass := collectGo true st2.pa regs e.outs
      let st3 := { st2 with
        log := st2.log ++ pass.1,
        blocksToErase := st2.blocksToErase ∨ e.collectSetsErase }
      if pass.2 = 0 ∧ ¬st3.blocksToErase then st3
      else collectorLoop regs rest st3

/-- The Manager::Collector task (Manager.cpp lines 359-391): one
non-destructive collection first, then the loop. -/
def collectorRun (regs : List Reg) (env0 : List (List Bool)) (env : List EnvStep)
    (pa0 : Nat) (bte0 : Bool) : CState :=
  let pass0 := collectGo false pa0 regs env0
  collectorLoop regs env { pa := pa0, blocksToErase := bte0, log := pass0.1 }

/-- The new-page decision of the first Page::AddImpl iteration
(Page.Storage.cpp lines 128-137) with the page and free slot as found by
Page::AddImpl: allocate a new page when there is no newest page of the
id, no free slot on it, the slot cannot hold the record, or the page
layout does not match the request. -/
def addNeedNew (s : Store) (id totalLength : Nat) (var : Bool) : Bool :=
  match newestPageIdx s id, (newestPageIdx s id).bind (fun i => (getPage s i).findFree) with
  | some i, some f =>
    decide (f + align4 totalLength > (getPage s i).data.length) ||
      (var && (getPage s i).recordSize != 0) ||
      (!var && (getPage s i).recordSize != 0 &&
        decide (align4 totalLength > (getPage s i).recordSize))
  | _, _ => true

/-! ### Concrete stores used by counterexamples and witnesses -/

/-- An empty store with room for one 8-byte fixed page. -/
def exC2store : Store :=
  { pages := [], freshPages := 1, payloadSize := 8, notifications := [] }

/-- A source page holding one variable record (key 9) and a newer empty
destination page of the same id. -/
def exMoveStore : Store :=
  { pages :=
      [{ id := 77, sequence := 1, recordSize := 0,
         data := [4, 0, 0, 0, 9, 0, 0, 0, 255, 255, 255, 255] },
       { id := 77, sequence := 2, recordSize := 0, data := List.replicate 12 255 }],
    freshPages := 0, payloadSize := 12, notifications := [] }

/-- A variable page holding two records with the same key 7 and identical
payload bytes 1,2,3,4. -/
def exC3store : Store :=
  { pages :=
      [{ id := 77, sequence := 1, recordSize := 0,
         data := [8, 0, 0, 0, 7, 0, 0, 0, 1, 2, 3, 4,
                  8, 0, 0, 0, 7, 0, 0, 0, 1, 2, 3, 4] }],
    freshPages := 0, payloadSize := 24, notifications := [] }

/-- A full variable page holding a single record with key 7. -/
def exOneRec : Store :=
  { pages :=
      [{ id := 77, sequence := 1, recordSize := 0,
         data := [8, 0, 0, 0, 7, 0, 0, 0, 1, 2, 3, 4] }],
    freshPages := 0, payloadSize := 12, notifications := [] }

/-- An empty store used by the settings scenario. -/
def exC4store : Store :=
  { pages := [], freshPages := 1, payloadSize := 16, notifications := [] }

/-- A setting whose cache is empty. -/
def exC4setting : SettingState := { version := 1, notify := false, value := none }

/-- A fixed page (record size 8) with two records of key 7; the second
occupies the last slot, which ends exactly at the page payload end. -/
def exC8store : Store :=
  { pages :=
      [{ id := 77, sequence := 1, recordSize := 8,
         data := [7, 0, 0, 0, 1, 2, 3, 4, 7, 0, 0, 0, 5, 6, 7, 8] }],
    freshPages := 0, payloadSize := 16, notifications := [] }

/-- A corrupted block: bogus magic, programmed generation, content not
erased. -/
def exC6block : InitBlock :=
  { magic := 5, generation := 3, restEmpty := false, pagesErasable := false,
    formatOk := true }

/-- Two valid blocks holding pages of id 5 with sequences 3 and 4 (plus a
page of another id and an empty slot). -/
def exC5blocks : List BlockHdr :=
  [{ valid := true, pages := [{ id := 5, sequence := 3 }, { id := 9, sequence := 7 }] },
   { valid := true, pages := [{ id := 5, sequence := 4 }, { id := ones32, sequence := 0 }] }]

end Nvram

/-! ## Theorems -/

namespace Nvram

/-- Unfolding helper: `storeFuel` is a successor. -/
theorem storeFuel_succ (s : Store) :
    storeFuel s = (s.pages.foldl (fun n p => n + pageFuel p.data) 0 + s.pages.length) + 1 :=
  rfl

/-- The duplicate loop exits at once when the unordered search finds no
second record with the key. -/
theorem replaceDupLoop_unique (key : Nat) (f : Nat) (s : Store) (rec0 : Loc × Nat)
    (h : findUnorderedNext s rec0.1 key = none) :
    replaceDupLoop key (f + 1) s rec0 = (s, rec0) := by
  unfold replaceDupLoop
  rw [h]

/-- C1: the claim asserts that a successful MoveRecords that moves at
least one record notifies exactly once on the page id.  In the code the
counter `moved` (Page.Storage.cpp line 474) is never incremented, so the
notification at line 502 is unreachable: here one record is moved (the
call succeeds, the source record is shredded, the destination holds the
copied record), yet the notification log stays empty. -/
theorem c1_moveRecords_moves_without_notification :
    (moveRecords exMoveStore 0 1 0).2 = true ∧
    storeWordAt (moveRecords exMoveStore 0 1 0).1 ⟨0, 4⟩ = 0 ∧
    storeWordAt (moveRecords exMoveStore 0 1 0).1 ⟨1, 4⟩ = 9 ∧
    readBytes (moveRecords exMoveStore 0 1 0).1 1 0 8 = [4, 0, 0, 0, 9, 0, 0, 0] ∧
    (moveRecords exMoveStore 0 1 0).1.notifications = [] := by
  decide

/-- C2: the claim asserts every record stored by a successful Add is
found by the unordered enumeration with its first word as key.  A fixed
record whose slot ends exactly at the page payload end refutes it: the
Page::FindForwardNextImpl loop guard `rec + recordSize < pe`
(Page.Search.cpp line 61) skips the slot that Page::FindFree
(`rec + recordSize <= pe`, Page.Storage.cpp line 26) hands out.  Here
AddFixed succeeds and stores the record bytes, yet the search returns
none. -/
theorem c2_stored_fixed_record_not_found :
    (addFixedImplSpan exC2store 77 [1, 0, 0, 0, 5, 6, 7, 8]).2 = some (⟨0, 0⟩, 8) ∧
    readBytes (addFixedImplSpan exC2store 77 [1, 0, 0, 0, 5, 6, 7, 8]).1 0 0 8 =
      [1, 0, 0, 0, 5, 6, 7, 8] ∧
    findUnorderedFirst (addFixedImplSpan exC2store 77 [1, 0, 0, 0, 5, 6, 7, 8]).1 77 1 =
      none := by
  decide

/-- C4: the claim asserts Setting::Set updates the cached value member.
In Setting::SetImpl (Settings.cpp lines 87-90) the parameter `value`
shadows the member `Setting::value`, so the assignment
`value = spec.Set(value)` targets the parameter: the store is written
(the returned span is valid and holds the new bytes) but the cache member
is unchanged and differs from the stored span. -/
theorem c4_setting_set_leaves_cache_unchanged :
    ((settingSetImpl exC4store exC4setting 77 7 [1, 2, 3, 4]).2.2).isSome = true ∧
    (settingSetImpl exC4store exC4setting 77 7 [1, 2, 3, 4]).2.1 = exC4setting ∧
    (settingSetImpl exC4store exC4setting 77 7 [1, 2, 3, 4]).2.1.value ≠
      (settingSetImpl exC4store exC4setting 77 7 [1, 2, 3, 4]).2.2 := by
  decide

/-- C3 counterexample: when a second (older) record with the key already
equals the payload, Page::ReplaceImpl shreds the older duplicate before
comparing (Page.Storage.cpp lines 173-189), so the newest pre-existing
record equals the new payload and is returned, yet a flash write
happened: the store differs after the call. -/
theorem c3_replace_equal_payload_writes_counterexample :
    (replaceVarImplKey exC3store 77 7 [1, 2, 3, 4]).2 = some (⟨0, 20⟩, 4) ∧
    (replaceVarImplKey exC3store 77 7 [1, 2, 3, 4]).1.pages ≠ exC3store.pages := by
  decide

/-- C3 amended: if the newest pre-existing record with the key is the
only record with that key reachable by the unordered enumeration and
already equals the new payload (for fixed layout an existing length
greater than the new length also counts, compared over the written
prefix), then Replace returns that record's span and performs no flash
write and no notification (the store is returned unchanged); an
immediately repeated identical call returns the identical span and again
leaves the store unchanged. -/
theorem c3_replace_equal_unique_no_write
    (s : Store) (id key tl : Nat) (rest : List Nat) (var : Bool) (loc : Loc) (len0 : Nat)
    (h1 : findUnorderedFirst s id key = some (loc, len0))
    (h2 : findUnorderedNext s loc key = none)
    (hlen : len0 = tl ∨ (var = false ∧ len0 > tl))
    (hbytes : tl ≤ 4 ∨
      bytesEq (getPage s loc.page).data (loc.off + 4) (rest.take (tl - 4)) = true) :
    replaceImpl s id key rest tl var = (s, some (loc, len0)) ∧
    replaceImpl (replaceImpl s id key rest tl var).1 id key rest tl var =
      (s, some (loc, len0)) := by
  have hcond : (len0 = tl ∨ (¬(var = true) ∧ len0 > tl)) ∧
      (tl ≤ 4 ∨
        bytesEq (getPage s loc.page).data (loc.off + 4) (rest.take (tl - 4)) = true) := by
    refine ⟨?_, hbytes⟩
    rcases hlen with h | ⟨hv, hgt⟩
    · exact Or.inl h
    · exact Or.inr ⟨by simp [hv], hgt⟩
  have hfirst : replaceImpl s id key rest tl var = (s, some (loc, len0)) := by
    unfold replaceImpl
    rw [h1, storeFuel_succ]
    dsimp only
    rw [replaceDupLoop_unique key _ s (loc, len0) h2]
    dsimp only
    rw [if_pos hcond]
  refine ⟨hfirst, ?_⟩
  rw [hfirst]
  exact hfirst

/-- C10: when the unordered search finds no record with the key (in
particular when no valid record with the key exists on any page of the
id), Page::Delete returns false and the store — pages and notification
log alike — is returned untouched: no flash write and no notification
happen. -/
theorem c10_delete_noop_on_absent_key (s : Store) (id key : Nat)
    (h : findUnorderedFirst s id key = none) :
    pageDelete s id key = (s, false) := by
  unfold pageDelete
  rw [h]

/-- C10 witness: deleting key 9 (absent) from the one-record store is a
no-op returning false. -/
theorem c10_delete_noop_on_absent_key_witness :
    pageDelete exOneRec 77 9 = (exOneRec, false) :=
  c10_delete_noop_on_absent_key exOneRec 77 9 (by decide)

/-- C3 witness: replacing the sole record with its own payload returns
the existing span twice and never changes the store. -/
theorem c3_replace_equal_unique_no_write_witness :
    replaceImpl exOneRec 77 7 [1, 2, 3, 4] 8 true = (exOneRec, some (⟨0, 4⟩, 8)) ∧
    replaceImpl (replaceImpl exOneRec 77 7 [1, 2, 3, 4] 8 true).1 77 7 [1, 2, 3, 4] 8 true =
      (exOneRec, some (⟨0, 4⟩, 8)) :=
  c3_replace_equal_unique_no_write exOneRec 77 7 8 [1, 2, 3, 4] true ⟨0, 4⟩ 8
    (by decide) (by decide) (Or.inl rfl) (by decide)

/-- C6 counterexample: with IgnoreCorrupted set, Manager::Initialize
leaves a corrupted block untouched (Manager.cpp lines 135-138), so its
state after initialization is Corrupted, not one of Empty, Valid,
Erasable as the claim asserts for every flag combination. -/
theorem c6_ignore_corrupted_block_counterexample :
    managerInit false true [exC6block] = [exC6block] ∧
    blockState exC6block = BlockState.corrupted := by
  decide

/-- Each branch of the Manager::Initialize block loop, when
IgnoreCorrupted is not set, leaves the block Empty, Valid, or
Erasable. -/
theorem initBlock_state_cases (a : InitBlock) :
    blockState (initBlock false a) = BlockState.empty ∨
    blockState (initBlock false a) = BlockState.valid ∨
    blockState (initBlock false a) = BlockState.erasable := by
  unfold initBlock
  split_ifs with h1 h2 h3 h4 h5 h6 <;>
    simp_all [blockState, blockEmpty, ones32, blockMagic]

/-- C6 amended: after Initialize with the IgnoreCorrupted flag not set
(Reset set or not), the state of every block derived from its header is
Empty, Valid, or Erasable.  (With IgnoreCorrupted set, corrupted blocks
are counted and left in place, see the counterexample.) -/
theorem c6_init_block_state_no_ignore (reset : Bool) (bs : List InitBlock)
    (b : InitBlock) (hb : b ∈ managerInit reset false bs) :
    blockState b = BlockState.empty ∨ blockState b = BlockState.valid ∨
      blockState b = BlockState.erasable := by
  unfold managerInit at hb
  rcases List.mem_map.mp hb with ⟨a, _, rfl⟩
  exact initBlock_state_cases a

/-- C6 witness: the corrupted example block is shredded to Erasable when
IgnoreCorrupted is off. -/
theorem c6_init_block_state_no_ignore_witness :
    blockState (initBlock false exC6block) = BlockState.empty ∨
    blockState (initBlock false exC6block) = BlockState.valid ∨
    blockState (initBlock false exC6block) = BlockState.erasable :=
  c6_init_block_state_no_ignore false [exC6block] (initBlock false exC6block) (by decide)

/-- A non-destructive pass never invokes a collector registered above
level 0: Manager::Collect breaks at the first such registration. -/
theorem collectGo_nondestructive_level (pa : Nat) :
    ∀ (regs : List Reg) (outss : List (List Bool)) (ev : CallEv),
      ev ∈ (collectGo false pa regs outss).1 → ev.level = 0 := by
  intro regs
  induction regs with
  | nil => intro outss ev hev; simp [collectGo] at hev
  | cons r rs ih =>
    intro outss ev hev
    by_cases hr : r.level = 0
    · simp [collectGo, hr] at hev
      rcases hev with rfl | h
      · rfl
      · exact ih outss.tail ev h
    · simp [collectGo, hr] at hev

/-- Every invocation logged by one Manager::Collect pass records the
`pagesAvailable` value the pass was entered with (ErasePage does not
change the counter). -/
theorem collectGo_pa (destructive : Bool) (pa : Nat) :
    ∀ (regs : List Reg) (outss : List (List Bool)) (ev : CallEv),
      ev ∈ (collectGo destructive pa regs outss).1 → ev.pa = pa := by
  intro regs
  induction regs with
  | nil => intro outss ev hev; simp [collectGo] at hev
  | cons r rs ih =>
    intro outss ev hev
    by_cases hr : r.level = 0
    · simp [collectGo, hr] at hev
      rcases hev with rfl | h
      · rfl
      · exact ih outss.tail ev h
    · cases destructive with
      | false => simp [collectGo, hr] at hev
      | true =>
        simp [collectGo, hr] at hev
        rcases hev with rfl | h
        · rfl
        · exact ih outss.tail ev h

/-- The erase step never touches the log. -/
theorem afterErase_log (e : EnvStep) (st : CState) : (afterErase e st).log = st.log := by
  unfold afterErase; split <;> rfl

/-- Invariant of the Manager::Collector loop: destructive invocations
are only ever added while `pagesAvailable` is below PagesKeptFree. -/
theorem collectorLoop_destructive_low (regs : List Reg) :
    ∀ (env : List EnvStep) (st : CState),
      (∀ ev ∈ st.log, 1 ≤ ev.level → ev.pa < PagesKeptFree) →
      ∀ ev ∈ (collectorLoop regs env st).log, 1 ≤ ev.level → ev.pa < PagesKeptFree := by
  intro env
  induction env with
  | nil => intro st hst ev hev; exact hst ev hev
  | cons e rest ih =>
    intro st hst ev hev hlvl
    rw [collectorLoop] at hev
    simp only [afterYield] at hev
    have hmix : ∀ pa2, pa2 < PagesKeptFree →
        ∀ ev' ∈ st.log ++ (collectGo true pa2 regs e.outs).1,
          1 ≤ ev'.level → ev'.pa < PagesKeptFree := by
      intro pa2 hpa2 ev' hev' hlvl'
      rcases List.mem_append.mp hev' with h | h
      · exact hst ev' h hlvl'
      · rw [collectGo_pa true pa2 regs e.outs ev' h]
        exact hpa2
    split at hev
    next hge => exact hst ev (by rwa [afterErase_log] at hev) hlvl
    next hge =>
      have hpa2 : (afterErase e st).pa - e.yieldAlloc < PagesKeptFree :=
        lt_of_le_of_lt (Nat.sub_le _ _) (Nat.lt_of_not_le hge)
      split at hev
      next hstop => exact hmix _ hpa2 ev (by rwa [afterErase_log] at hev) hlvl
      next hstop =>
        refine ih _ ?_ ev hev hlvl
        intro ev' hev' hlvl'
        refine hmix _ hpa2 ev' ?_ hlvl'
        rwa [afterErase_log] at hev'

/-- C7: a collector registered at a destructive level (1 or higher) is
never invoked while the free-page count is at least PagesKeptFree: the
initial non-destructive pass never reaches such a registration, and the
loop only runs a destructive pass after observing the count below the
low-water mark, with cooperative yields in between only able to decrease
it. -/
theorem c7_destructive_only_below_low_water (regs : List Reg)
    (env0 : List (List Bool)) (env : List EnvStep) (pa0 : Nat) (bte0 : Bool) :
    ∀ ev ∈ (collectorRun regs env0 env pa0 bte0).log,
      1 ≤ ev.level → ev.pa < PagesKeptFree := by
  intro ev hev hlvl
  unfold collectorRun at hev
  refine collectorLoop_destructive_low regs env _ ?_ ev hev hlvl
  intro ev' hev' hlvl'
  have h0 : ev'.level = 0 := collectGo_nondestructive_level pa0 regs env0 ev' hev'
  omega

/-- C7 witness: a level-1 collector invoked by the loop at free-page
count 0 (below the low-water mark). -/
theorem c7_destructive_only_below_low_water_witness :
    (⟨1, 0⟩ : CallEv).pa < PagesKeptFree :=
  c7_destructive_only_below_low_water [⟨1⟩] [] [⟨0, 0, 0, false, false, [[true]]⟩] 0 false
    ⟨1, 0⟩ (by decide) (by decide)


/-- With no page of the requested id after an empty slot in the block,
the page loop of the Manager::NewPage scan folds the accumulator over
exactly the sequences of the pages with the id, whether or not it breaks
at a free slot. -/
theorem npScanPages_fold (id : Nat) :
    ∀ (ps : List PageHdr), noIdAfterEmpty id ps →
      ∀ seq free, (npScanPages id ps seq free).1 = (pageIdSeqs id ps).foldl ovfAcc seq := by
  intro ps
  induction ps with
  | nil => intro _ seq free; rfl
  | cons p ps ih =>
    intro hwf seq free
    have h2 : noIdAfterEmpty id ps := hwf.2
    by_cases hp : p.id = id
    · have : pageIdSeqs id (p :: ps) = p.sequence :: pageIdSeqs id ps := by
        simp [pageIdSeqs, hp]
      rw [this]
      show (npScanPages id (p :: ps) seq free).1 =
        (pageIdSeqs id ps).foldl ovfAcc (ovfAcc seq p.sequence)
      unfold npScanPages
      rw [if_pos hp]
      exact ih h2 _ free
    · have hskip : pageIdSeqs id (p :: ps) = pageIdSeqs id ps := by
        simp [pageIdSeqs, hp]
      rw [hskip]
      unfold npScanPages
      rw [if_neg hp]
      by_cases hbrk : ¬free = true ∧ p.id = ones32
      · rw [if_pos hbrk]
        have hnone : pageIdSeqs id ps = [] := by
          have := hwf.1 hbrk.2
          simp only [pageIdSeqs, List.map_eq_nil_iff, List.filter_eq_nil_iff]
          intro q hq
          simp [this q hq]
        rw [hnone]
        rfl
      · rw [if_neg hbrk]
        exact ih h2 seq free

/-- The block loop of the Manager::NewPage scan folds over the
concatenated id sequences of the valid blocks. -/
theorem npScanBlocks_fold (id : Nat) :
    ∀ (bs : List BlockHdr), (∀ b ∈ bs, b.valid = true → noIdAfterEmpty id b.pages) →
      ∀ seq free, (npScanBlocks id bs seq free).1 = (idSequences bs id).foldl ovfAcc seq := by
  intro bs
  induction bs with
  | nil => intro _ seq free; rfl
  | cons b bs ih =>
    intro hwf seq free
    have hb2 : ∀ c ∈ bs, c.valid = true → noIdAfterEmpty id c.pages :=
      fun c hc => hwf c (List.mem_cons_of_mem b hc)
    by_cases hv : b.valid = true
    · have hseqs : idSequences (b :: bs) id = pageIdSeqs id b.pages ++ idSequences bs id := by
        simp [idSequences, hv]
      rw [hseqs, List.foldl_append]
      unfold npScanBlocks
      rw [if_pos hv]
      rw [ih hb2]
      rw [npScanPages_fold id b.pages (hwf b (List.mem_cons_self b bs) hv) seq free]
    · have hseqs : idSequences (b :: bs) id = idSequences bs id := by
        simp [idSequences, hv]
      rw [hseqs]
      unfold npScanBlocks
      rw [if_neg hv]
      exact ih hb2 seq free

/-- Inside a common half-window, the overflow-aware comparison agrees
with the order of the window positions. -/
theorem ovfLt_window (base a b : Nat) (ha : a < 65536) (hb : b < 65536)
    (hra : relW base a < 32768) (hrb : relW base b < 32768) :
    ovfLt a b = true ↔ relW base a < relW base b := by
  simp only [ovfLt, relW, decide_eq_true_eq] at *
  omega

/-- Window positions determine the sequence. -/
theorem relW_inj (base a b : Nat) (ha : a < 65536) (hb : b < 65536)
    (h : relW base a = relW base b) : a = b := by
  simp only [relW] at h
  omega

/-- Folding the NewPage accumulation over window sequences yields an
element at a maximal window position, dominating the accumulator and
every element. -/
theorem foldl_ovfAcc_aux (base : Nat) :
    ∀ (l : List Nat), (∀ q ∈ l, q < 65536 ∧ relW base q < 32768) →
      ∀ acc, acc < 65536 → relW base acc < 32768 →
        (l.foldl ovfAcc acc < 65536 ∧ relW base (l.foldl ovfAcc acc) < 32768) ∧
          (l.foldl ovfAcc acc = acc ∨ l.foldl ovfAcc acc ∈ l) ∧
          relW base acc ≤ relW base (l.foldl ovfAcc acc) ∧
          ∀ q ∈ l, relW base q ≤ relW base (l.foldl ovfAcc acc) := by
  intro l
  induction l with
  | nil =>
    intro _ acc h1 h2
    exact ⟨⟨h1, h2⟩, Or.inl rfl, le_refl _, by simp⟩
  | cons q l ih =>
    intro hl acc hacc1 hacc2
    have hq := hl q (List.mem_cons_self q l)
    have hl' : ∀ x ∈ l, x < 65536 ∧ relW base x < 32768 :=
      fun x hx => hl x (List.mem_cons_of_mem q hx)
    have hmod : acc % 65536 = acc := Nat.mod_eq_of_lt hacc1
    have hne : ¬acc = ones32 := by unfold ones32; omega
    have hstep : (q :: l).foldl ovfAcc acc = l.foldl ovfAcc (ovfAcc acc q) := rfl
    by_cases hlt : ovfLt acc q = true
    · have hacc' : ovfAcc acc q = q := by
        simp [ovfAcc, hmod, hlt, hne]
      rw [hstep, hacc']
      obtain ⟨hr, rmem, rge, rdom⟩ := ih hl' q hq.1 hq.2
      have haq : relW base acc ≤ relW base q :=
        le_of_lt ((ovfLt_window base acc q hacc1 hq.1 hacc2 hq.2).mp hlt)
      refine ⟨hr, ?_, le_trans haq rge, ?_⟩
      · rcases rmem with h | h
        · exact Or.inr (by rw [h]; exact List.mem_cons_self q l)
        · exact Or.inr (List.mem_cons_of_mem q h)
      · intro x hx
        rcases List.mem_cons.mp hx with rfl | h
        · exact rge
        · exact rdom x h
    · have hacc' : ovfAcc acc q = acc := by
        simp [ovfAcc, hmod, hlt, hne]
      rw [hstep, hacc']
      obtain ⟨hr, rmem, rge, rdom⟩ := ih hl' acc hacc1 hacc2
      have hqa : relW base q ≤ relW base acc := by
        by_contra hcon
        exact hlt ((ovfLt_window base acc q hacc1 hq.1 hacc2 hq.2).mpr (by omega))
      refine ⟨hr, ?_, rge, ?_⟩
      · rcases rmem with h | h
        · exact Or.inl h
        · exact Or.inr (List.mem_cons_of_mem q h)
      · intro x hx
        rcases List.mem_cons.mp hx with rfl | h
        · exact le_trans hqa rge
        · exact rdom x h

/-- The NewPage fold over a non-empty window list returns an element that
no element overflow-exceeds. -/
theorem foldl_ovfAcc_max (base : Nat) (l : List Nat)
    (hl : ∀ q ∈ l, q < 65536 ∧ relW base q < 32768) (hne : l ≠ []) :
    l.foldl ovfAcc ones32 ∈ l ∧
      (∀ q ∈ l, ovfLt (l.foldl ovfAcc ones32) q = false) ∧
      ∀ q ∈ l, relW base q ≤ relW base (l.foldl ovfAcc ones32) := by
  obtain ⟨q0, l', rfl⟩ := List.exists_cons_of_ne_nil hne
  have h0 := hl q0 (List.mem_cons_self q0 l')
  have hl' : ∀ x ∈ l', x < 65536 ∧ relW base x < 32768 :=
    fun x hx => hl x (List.mem_cons_of_mem q0 hx)
  have hstart : (q0 :: l').foldl ovfAcc ones32 = l'.foldl ovfAcc q0 := by
    show l'.foldl ovfAcc (ovfAcc ones32 q0) = l'.foldl ovfAcc q0
    simp [ovfAcc]
  rw [hstart]
  obtain ⟨hr, rmem, rge, rdom⟩ := foldl_ovfAcc_aux base l' hl' q0 h0.1 h0.2
  have hmem : l'.foldl ovfAcc q0 ∈ q0 :: l' := by
    rcases rmem with h | h
    · rw [h]; exact List.mem_cons_self q0 l'
    · exact List.mem_cons_of_mem q0 h
  have hdomall : ∀ q ∈ q0 :: l', relW base q ≤ relW base (l'.foldl ovfAcc q0) := by
    intro q hqm
    rcases List.mem_cons.mp hqm with rfl | h
    · exact rge
    · exact rdom q h
  refine ⟨hmem, ?_, hdomall⟩
  intro q hqm
  have hq := hl q hqm
  cases hb : ovfLt (l'.foldl ovfAcc q0) q with
  | false => rfl
  | true =>
    have := (ovfLt_window base _ q hr.1 hq.1 hr.2 hq.2).mp hb
    have := hdomall q hqm
    omega

/-- C5: the 16-bit sequence written by Manager::NewPage is the
overflow-aware maximum of the sequences of the existing pages with the
requested id, plus one (truncated to 16 bits), and 1 when no such page
exists.  Hypotheses: sequences are 16-bit values lying in a common
overflow half-window (so the overflow-aware maximum is well defined), and
within each valid block no page of the id follows an empty slot (pages
are allocated front to back), so the scan's break at the first free slot
skips no relevant page. -/
theorem c5_newpage_sequence_is_ovf_max_succ (bs : List BlockHdr) (id : Nat)
    (hseq : ∀ q ∈ idSequences bs id, q < 65536)
    (hpfx : ∀ b ∈ bs, b.valid = true → noIdAfterEmpty id b.pages)
    (base : Nat) (hwin : ∀ q ∈ idSequences bs id, relW base q < 32768) :
    (idSequences bs id = [] → newPageSeq16 bs id = 1) ∧
    (idSequences bs id ≠ [] →
      ∃ m ∈ idSequences bs id, (∀ q ∈ idSequences bs id, ovfLt m q = false) ∧
        newPageSeq16 bs id = (m + 1) % 65536) ∧
    (∀ m ∈ idSequences bs id, (∀ q ∈ idSequences bs id, ovfLt m q = false) →
      newPageSeq16 bs id = (m + 1) % 65536) := by
  have hl : ∀ q ∈ idSequences bs id, q < 65536 ∧ relW base q < 32768 :=
    fun q hq => ⟨hseq q hq, hwin q hq⟩
  have hfold : (npScanBlocks id bs ones32 false).1 = (idSequences bs id).foldl ovfAcc ones32 :=
    npScanBlocks_fold id bs hpfx ones32 false
  have hval : newPageSeq16 bs id =
      (if (idSequences bs id).foldl ovfAcc ones32 = ones32 then 1
        else (idSequences bs id).foldl ovfAcc ones32 + 1) % 65536 := by
    unfold newPageSeq16
    rw [hfold]
  refine ⟨?_, ?_, ?_⟩
  · intro h
    rw [hval, h]
    rfl
  · intro hne
    obtain ⟨hmem, hdom, _⟩ := foldl_ovfAcc_max base (idSequences bs id) hl hne
    refine ⟨(idSequences bs id).foldl ovfAcc ones32, hmem, hdom, ?_⟩
    rw [hval]
    have hlt : (idSequences bs id).foldl ovfAcc ones32 < 65536 := (hl _ hmem).1
    have hneq : ¬(idSequences bs id).foldl ovfAcc ones32 = ones32 := by
      intro h
      rw [h] at hlt
      exact absurd hlt (by decide)
    rw [if_neg hneq]
  · intro m hm hmdom
    have hne : idSequences bs id ≠ [] := by
      intro h
      rw [h] at hm
      exact absurd hm (List.not_mem_nil m)
    obtain ⟨hmem, hdom, hdomrel⟩ := foldl_ovfAcc_max base (idSequences bs id) hl hne
    have hr := hl _ hmem
    have hmw := hl m hm
    have h1 : relW base m ≤ relW base ((idSequences bs id).foldl ovfAcc ones32) :=
      hdomrel m hm
    have h2 : relW base ((idSequences bs id).foldl ovfAcc ones32) ≤ relW base m := by
      have hb := hmdom _ hmem
      by_contra hcon
      rw [(ovfLt_window base m _ hmw.1 hr.1 hmw.2 hr.2).mpr (by omega)] at hb
      exact Bool.true_eq_false.mp hb
    have heqm : (idSequences bs id).foldl ovfAcc ones32 = m :=
      relW_inj base _ m hr.1 hmw.1 (le_antisymm h2 h1)
    have hneq : ¬(idSequences bs id).foldl ovfAcc ones32 = ones32 := by
      intro h
      have hlt := hr.1
      rw [h] at hlt
      exact absurd hlt (by decide)
    rw [hval, if_neg hneq, heqm]

/-- C5 witness: on the two example blocks, the new page for id 5 gets
sequence 5 = max(3, 4) + 1. -/
theorem c5_newpage_sequence_is_ovf_max_succ_witness :
    newPageSeq16 exC5blocks 5 = (4 + 1) % 65536 :=
  (c5_newpage_sequence_is_ovf_max_succ exC5blocks 5 (by decide) (by decide) 0
    (by decide)).2.2 4 (by decide) (by decide)


/-! ### Byte-level plumbing lemmas -/

theorem byteAt_set (d : List Nat) (i j b : Nat) :
    byteAt (d.set i b) j = if i = j ∧ j < d.length then b else byteAt d j := by
  unfold byteAt
  by_cases h : i = j ∧ j < d.length
  · rcases h with ⟨rfl, hlt⟩
    simp [List.getD, List.getElem?_set_eq_of_lt, hlt]
  · rw [if_neg h]
    push_neg at h
    by_cases he : i = j
    · subst he
      have hle : d.length ≤ i := h rfl
      simp [List.getD]
      rw [List.getElem?_set_self']
      have h1 : d[i]? = none := List.getElem?_eq_none hle
      simp [h1]
    · simp [List.getD, List.getElem?_set_ne he]

theorem land_zero_right (x : Nat) : Nat.land x 0 = 0 := by
  show x &&& 0 = 0
  simp

theorem shredWordAt_eq (d : List Nat) (o : Nat) :
    shredWordAt d o = (((d.set o 0).set (o + 1) 0).set (o + 2) 0).set (o + 3) 0 := by
  simp [shredWordAt, andBytes, andByte, land_zero_right]

theorem shredWordAt_length (d : List Nat) (o : Nat) :
    (shredWordAt d o).length = d.length := by
  rw [shredWordAt_eq]
  simp

theorem byteAt_shredWordAt (d : List Nat) (o j : Nat) :
    byteAt (shredWordAt d o) j =
      if o ≤ j ∧ j < o + 4 ∧ j < d.length then 0 else byteAt d j := by
  rw [shredWordAt_eq]
  rw [byteAt_set, byteAt_set, byteAt_set, byteAt_set]
  simp only [List.length_set]
  split_ifs <;> first | rfl | (exfalso; omega)

theorem wordAt_congr4 (d d' : List Nat) (i : Nat)
    (h0 : byteAt d' i = byteAt d i) (h1 : byteAt d' (i + 1) = byteAt d (i + 1))
    (h2 : byteAt d' (i + 2) = byteAt d (i + 2))
    (h3 : byteAt d' (i + 3) = byteAt d (i + 3)) : wordAt d' i = wordAt d i := by
  unfold wordAt
  rw [h0, h1, h2, h3]

theorem wordAt_shredWordAt_self (d : List Nat) (o : Nat) (h : o + 4 ≤ d.length) :
    wordAt (shredWordAt d o) o = 0 := by
  unfold wordAt
  rw [byteAt_shredWordAt, byteAt_shredWordAt, byteAt_shredWordAt, byteAt_shredWordAt]
  rw [if_pos (by omega), if_pos (by omega), if_pos (by omega), if_pos (by omega)]

theorem wordAt_shredWordAt_of_disjoint (d : List Nat) (o j : Nat)
    (h : j + 4 ≤ o ∨ o + 4 ≤ j) : wordAt (shredWordAt d o) j = wordAt d j := by
  apply wordAt_congr4 <;> (rw [byteAt_shredWordAt]; rw [if_neg (by omega)])

theorem wordAt_zero_bytes (d : List Nat) (i : Nat) (h : wordAt d i = 0) :
    byteAt d i = 0 ∧ byteAt d (i + 1) = 0 ∧ byteAt d (i + 2) = 0 ∧
      byteAt d (i + 3) = 0 := by
  unfold wordAt at h
  omega

/-! ### Store plumbing lemmas -/

theorem setPageData_pages_length (s : Store) (i : Nat) (d : List Nat) :
    (setPageData s i d).pages.length = s.pages.length := by
  simp [setPageData]

theorem setPageData_notifications (s : Store) (i : Nat) (d : List Nat) :
    (setPageData s i d).notifications = s.notifications := rfl

theorem setPageData_freshPages (s : Store) (i : Nat) (d : List Nat) :
    (setPageData s i d).freshPages = s.freshPages := rfl

theorem getPage_setPageData_ne (s : Store) (i j : Nat) (d : List Nat) (h : i ≠ j) :
    getPage (setPageData s i d) j = getPage s j := by
  simp [getPage, setPageData, List.getD]
  rw [List.getElem?_set_ne h]

theorem getPage_setPageData_self (s : Store) (i : Nat) (d : List Nat)
    (h : i < s.pages.length) :
    getPage (setPageData s i d) i = { getPage s i with data := d } := by
  simp [getPage, setPageData, List.getD, List.getElem?_set_eq_of_lt, h]

theorem setPageData_out (s : Store) (i : Nat) (d : List Nat)
    (h : s.pages.length ≤ i) : setPageData s i d = s := by
  simp [setPageData, List.set_eq_of_length_le h]

theorem getPage_setPageData_id (s : Store) (i j : Nat) (d : List Nat) :
    (getPage (setPageData s i d) j).id = (getPage s j).id := by
  by_cases h : i = j
  · subst h
    by_cases hl : i < s.pages.length
    · rw [getPage_setPageData_self s i d hl]
    · rw [setPageData_out s i d (Nat.le_of_not_lt hl)]
  · rw [getPage_setPageData_ne s i j d h]

theorem getPage_setPageData_recordSize (s : Store) (i j : Nat) (d : List Nat) :
    (getPage (setPageData s i d) j).recordSize = (getPage s j).recordSize := by
  by_cases h : i = j
  · subst h
    by_cases hl : i < s.pages.length
    · rw [getPage_setPageData_self s i d hl]
    · rw [setPageData_out s i d (Nat.le_of_not_lt hl)]
  · rw [getPage_setPageData_ne s i j d h]

theorem findIdx?_set_congr {α : Type} (p : α → Bool) :
    ∀ (l : List α) (i : Nat) (x : α) (start : Nat),
      (∀ h : i < l.length, p x = p (l.get ⟨i, h⟩)) →
      (l.set i x).findIdx? p start = l.findIdx? p start := by
  intro l
  induction l with
  | nil => intro i x start _; simp
  | cons a t ih =>
    intro i x start hpi
    cases i with
    | zero =>
      have hpx : p x = p a := hpi (by simp)
      simp only [List.set_cons_zero, List.findIdx?_cons, hpx]
    | succ n =>
      have hrec := ih n x (start + 1) (fun h => hpi (Nat.succ_lt_succ h))
      simp only [List.set_cons_succ, List.findIdx?_cons]
      rw [hrec]

theorem firstPageIdx_setPageData (s : Store) (i : Nat) (d : List Nat) (id : Nat) :
    firstPageIdx (setPageData s i d) id = firstPageIdx s id := by
  unfold firstPageIdx setPageData
  apply findIdx?_set_congr
  intro h
  simp [getPage, List.getD, List.getElem?_eq_getElem h, List.get_eq_getElem]

theorem drop_set_ge {α : Type} (l : List α) (i j : Nat) (x : α) (h : j ≤ i) :
    (l.set i x).drop j = (l.drop j).set (i - j) x := by
  ext1 k
  rw [List.getElem?_drop]
  by_cases hk : j + k = i
  · subst hk
    have hik : j + k - j = k := by omega
    rw [hik]
    by_cases hil : j + k < l.length
    · rw [List.getElem?_set_eq_of_lt x hil,
        List.getElem?_set_eq_of_lt x (by rw [List.length_drop]; omega)]
    · rw [List.set_eq_of_length_le (by omega),
        List.set_eq_of_length_le (by rw [List.length_drop]; omega),
        List.getElem?_drop]
  · rw [List.getElem?_set_ne (by omega : i ≠ j + k)]
    rw [List.getElem?_set_ne (by omega : i - j ≠ k)]
    rw [List.getElem?_drop]

theorem nextPageIdx_setPageData (s : Store) (i j : Nat) (d : List Nat) :
    nextPageIdx (setPageData s i d) j = nextPageIdx s j := by
  unfold nextPageIdx
  have hid : (getPage (setPageData s i d) j).id = (getPage s j).id :=
    getPage_setPageData_id s i j d
  by_cases h : j + 1 ≤ i
  · have hdrop : (setPageData s i d).pages.drop (j + 1) =
        (s.pages.drop (j + 1)).set (i - (j + 1))
          { getPage s i with data := d } := by
      show (s.pages.set i _).drop (j + 1) = _
      exact drop_set_ge s.pages i (j + 1) _ h
    rw [hid, hdrop]
    rw [findIdx?_set_congr]
    intro hlen
    have hil : i < s.pages.length := by
      have := hlen
      rw [List.length_drop] at this
      omega
    have hidx : (j + 1) + (i - (j + 1)) = i := by omega
    have hget : (s.pages.drop (j + 1)).get ⟨i - (j + 1), hlen⟩ = s.pages.get ⟨i, hil⟩ := by
      rw [List.get_eq_getElem, List.get_eq_getElem, List.getElem_drop]
      simp only [hidx]
    rw [hget]
    simp [getPage, List.getD, List.getElem?_eq_getElem hil, List.get_eq_getElem]
  · have hdrop : (setPageData s i d).pages.drop (j + 1) = s.pages.drop (j + 1) := by
      show (s.pages.set i _).drop (j + 1) = _
      exact List.drop_set_of_lt _ _ (by omega)
    rw [hid, hdrop]


/-! ### Scan lemmas: the find functions are the heads of the hit lists -/

theorem scanFixed_head (d : List Nat) (rs key : Nat) :
    ∀ fuel pos, scanFixed d rs key fuel pos = (scanFixedList d rs key fuel pos).head? := by
  intro fuel
  induction fuel with
  | zero => intro pos; rfl
  | succ f ih =>
    intro pos
    simp only [scanFixed, scanFixedList]
    split_ifs <;> first | rfl | exact ih _

theorem scanVar_head (d : List Nat) (key : Nat) :
    ∀ fuel pos, scanVar d key fuel pos = (scanVarList d key fuel pos).head? := by
  intro fuel
  induction fuel with
  | zero => intro pos; rfl
  | succ f ih =>
    intro pos
    simp only [scanVar, scanVarList]
    split_ifs <;> first | rfl | exact ih _

theorem pageFindNext_head (p : Page) (prev : Option Nat) (key : Nat) :
    pageFindNext p prev key = (pageListFrom p prev key).head? := by
  unfold pageFindNext pageListFrom
  by_cases h : p.recordSize ≠ 0
  · rw [if_pos h, if_pos h]
    exact scanFixed_head ..
  · rw [if_neg h, if_neg h]
    exact scanVar_head ..

theorem storeFindFrom_head (s : Store) (key : Nat) :
    ∀ fuel i prev,
      storeFindFrom s key fuel i prev = (storeListFrom s key fuel i prev).head? := by
  intro fuel
  induction fuel with
  | zero => intro i prev; rfl
  | succ f ih =>
    intro i prev
    unfold storeFindFrom storeListFrom
    rw [pageFindNext_head]
    cases hpl : pageListFrom (getPage s i) prev key with
    | cons e rest => simp
    | nil =>
      cases hn : nextPageIdx s i with
      | none => simp
      | some j => simpa using ih j none

theorem findUnorderedFirst_head (s : Store) (id key : Nat) :
    findUnorderedFirst s id key = (storeMatchList s id key).head? := by
  unfold findUnorderedFirst storeMatchList
  cases firstPageIdx s id with
  | none => rfl
  | some i => exact storeFindFrom_head s key _ i none

theorem findUnorderedNext_head (s : Store) (loc : Loc) (key : Nat) :
    findUnorderedNext s loc key = (storeListAfter s loc key).head? :=
  storeFindFrom_head s key _ loc.page (some loc.off)

/-! ### Scan congruence in the data -/

theorem scanVarList_congr (d d' : List Nat) (key : Nat) (hlen : d'.length = d.length) :
    ∀ fuel pos, (∀ j, pos ≤ j + 4 → byteAt d' j = byteAt d j) →
      scanVarList d' key fuel pos = scanVarList d key fuel pos := by
  intro fuel
  induction fuel with
  | zero => intro pos _; rfl
  | succ f ih =>
    intro pos hag
    have hw : ∀ k, pos ≤ k + 4 → wordAt d' k = wordAt d k := fun k hk =>
      wordAt_congr4 d d' k (hag k hk) (hag _ (by omega)) (hag _ (by omega))
        (hag _ (by omega))
    have hlenr : varGetLen d' pos = varGetLen d pos := by
      unfold varGetLen
      exact hw (pos - 4) (by omega)
    have hfw : wordAt d' pos = wordAt d pos := hw pos (by omega)
    simp only [scanVarList]
    rw [hlen, hlenr, hfw]
    split_ifs <;>
      first
      | rfl
      | (apply ih; intro j hj; exact hag j (by omega))
      | (refine congrArg _ ?_; apply ih; intro j hj; exact hag j (by omega))

theorem scanFixedList_congr (d d' : List Nat) (rs key : Nat) (hlen : d'.length = d.length) :
    ∀ fuel pos, (∀ j, pos ≤ j → byteAt d' j = byteAt d j) →
      scanFixedList d' rs key fuel pos = scanFixedList d rs key fuel pos := by
  intro fuel
  induction fuel with
  | zero => intro pos _; rfl
  | succ f ih =>
    intro pos hag
    have hfw : wordAt d' pos = wordAt d pos :=
      wordAt_congr4 d d' pos (hag pos (by omega)) (hag _ (by omega)) (hag _ (by omega))
        (hag _ (by omega))
    simp only [scanFixedList]
    rw [hlen, hfw]
    split_ifs <;>
      first
      | rfl
      | (apply ih; intro j hj; exact hag j (by omega))
      | (refine congrArg _ ?_; apply ih; intro j hj; exact hag j (by omega))

/-! ### Properties of scan-list members -/

theorem scanVarList_mem (d : List Nat) (key : Nat) :
    ∀ fuel pos o l, (o, l) ∈ scanVarList d key fuel pos →
      pos ≤ o ∧ o < d.length ∧ varGetLen d o = l ∧ l ≠ 0 ∧ l ≠ ones32 ∧
        wordAt d o ≠ 0 ∧ (key = 0 ∨ wordAt d o = key) := by
  intro fuel
  induction fuel with
  | zero => intro pos o l h; simp [scanVarList] at h
  | succ f ih =>
    intro pos o l h
    simp only [scanVarList] at h
    split_ifs at h with h1 h2 h3
    · obtain ⟨hp, rest⟩ := ih _ o l h
      exact ⟨by omega, rest⟩
    · rcases List.mem_cons.mp h with heq | hmem
      · injection heq with h4 h5
        subst h4
        subst h5
        exact ⟨le_refl _, h1, rfl, h2, h3.1, h3.2.1, h3.2.2⟩
      · obtain ⟨hp, rest⟩ := ih _ o l hmem
        exact ⟨by omega, rest⟩
    · obtain ⟨hp, rest⟩ := ih _ o l h
      exact ⟨by omega, rest⟩
    · exact absurd h (List.not_mem_nil _)

theorem scanFixedList_mem (d : List Nat) (rs key : Nat) :
    ∀ fuel pos o l, (o, l) ∈ scanFixedList d rs key fuel pos →
      pos ≤ o ∧ o + rs < d.length ∧ l = rs ∧ wordAt d o ≠ 0 ∧ wordAt d o ≠ ones32 ∧
        (key = 0 ∨ wordAt d o = key) := by
  intro fuel
  induction fuel with
  | zero => intro pos o l h; simp [scanFixedList] at h
  | succ f ih =>
    intro pos o l h
    simp only [scanFixedList] at h
    split_ifs at h with h1 h2 h3
    · obtain ⟨hp, rest⟩ := ih _ o l h
      exact ⟨by omega, rest⟩
    · rcases List.mem_cons.mp h with heq | hmem
      · injection heq with h4 h5
        subst h4
        subst h5
        exact ⟨le_refl _, h1, rfl, h2, h3.1, h3.2⟩
      · obtain ⟨hp, rest⟩ := ih _ o l hmem
        exact ⟨by omega, rest⟩
    · obtain ⟨hp, rest⟩ := ih _ o l h
      exact ⟨by omega, rest⟩
    · exact absurd h (List.not_mem_nil _)

/-! ### Stride positivity under noStuck -/

theorem varSkipLen_ge_of_noStuck (d : List Nat) (hns : noStuck d) (pos : Nat)
    (hpos : pos < d.length) : 4 ≤ varSkipLen (varGetLen d pos) := by
  have hj : pos - 4 < d.length := by omega
  rcases hns (pos - 4) hj with h | h
  · unfold varSkipLen align4
    have : (varGetLen d pos + 4) % 4294967296 = varGetLen d pos + 4 := by
      unfold varGetLen at *
      omega
    rw [this]
    omega
  · have : varGetLen d pos = ones32 := h
    rw [this]
    decide

theorem varSkipLen_valid_ge (l : Nat) (h0 : l ≠ 0) (hlt : l < 4294967292) :
    8 ≤ varSkipLen l := by
  unfold varSkipLen align4
  have : (l + 4) % 4294967296 = l + 4 := by omega
  rw [this]
  omega

/-! ### Fuel stability of the scan lists -/

theorem scanFixedList_fuel (d : List Nat) (rs key : Nat) (hrs : 1 ≤ rs) :
    ∀ f1 f2 pos, d.length ≤ pos + f1 → d.length ≤ pos + f2 →
      scanFixedList d rs key f1 pos = scanFixedList d rs key f2 pos := by
  intro f1
  induction f1 with
  | zero =>
    intro f2 pos h1 h2
    cases f2 with
    | zero => rfl
    | succ g =>
      show ([] : List (Nat × Nat)) = scanFixedList d rs key (g + 1) pos
      simp only [scanFixedList]
      rw [if_neg (by omega)]
  | succ f ih =>
    intro f2 pos h1 h2
    cases f2 with
    | zero =>
      show scanFixedList d rs key (f + 1) pos = ([] : List (Nat × Nat))
      simp only [scanFixedList]
      rw [if_neg (by omega)]
    | succ g =>
      simp only [scanFixedList]
      split_ifs with hc1 hc2 hc3
      · exact ih g (pos + rs) (by omega) (by omega)
      · exact congrArg _ (ih g (pos + rs) (by omega) (by omega))
      · exact ih g (pos + rs) (by omega) (by omega)
      · rfl

theorem scanVarList_fuel (d : List Nat) (key : Nat) (hns : noStuck d) :
    ∀ f1 f2 pos, d.length ≤ pos + f1 → d.length ≤ pos + f2 →
      scanVarList d key f1 pos = scanVarList d key f2 pos := by
  intro f1
  induction f1 with
  | zero =>
    intro f2 pos h1 h2
    cases f2 with
    | zero => rfl
    | succ g =>
      show ([] : List (Nat × Nat)) = scanVarList d key (g + 1) pos
      simp only [scanVarList]
      rw [if_neg (by omega)]
  | succ f ih =>
    intro f2 pos h1 h2
    cases f2 with
    | zero =>
      show scanVarList d key (f + 1) pos = ([] : List (Nat × Nat))
      simp only [scanVarList]
      rw [if_neg (by omega)]
    | succ g =>
      simp only [scanVarList]
      split_ifs with hc1 hc2 hc3
      · have hs : 4 ≤ varSkipLen (varGetLen d pos) := varSkipLen_ge_of_noStuck d hns pos hc1
        exact ih g _ (by omega) (by omega)
      · have hs : 4 ≤ varSkipLen (varGetLen d pos) := varSkipLen_ge_of_noStuck d hns pos hc1
        exact congrArg _ (ih g _ (by omega) (by omega))
      · have hs : 4 ≤ varSkipLen (varGetLen d pos) := varSkipLen_ge_of_noStuck d hns pos hc1
        exact ih g _ (by omega) (by omega)
      · rfl

/-! ### Tail decomposition of the scan lists -/

theorem scanFixedList_tail (d : List Nat) (rs key : Nat) (hrs : 1 ≤ rs) :
    ∀ f pos o l rest, d.length ≤ pos + f →
      scanFixedList d rs key f pos = (o, l) :: rest →
      rest = scanFixedList d rs key (pageFuel d) (o + rs) := by
  intro f
  induction f with
  | zero => intro pos o l rest _ h; exact absurd h (by simp [scanFixedList])
  | succ f ih =>
    intro pos o l rest hf h
    simp only [scanFixedList] at h
    split_ifs at h with h1 h2 h3
    · exact ih (pos + rs) o l rest (by omega) h
    · obtain ⟨he, ht⟩ := List.cons.inj h
      injection he with h4 h5
      subst h4
      subst h5
      rw [← ht]
      exact scanFixedList_fuel d rs key hrs f (pageFuel d) (pos + rs) (by omega)
        (by unfold pageFuel; omega)
    · exact ih (pos + rs) o l rest (by omega) h

theorem scanVarList_tail (d : List Nat) (key : Nat) (hns : noStuck d) :
    ∀ f pos o l rest, d.length ≤ pos + f →
      scanVarList d key f pos = (o, l) :: rest →
      rest = scanVarList d key (pageFuel d) (o + varSkipLen l) := by
  intro f
  induction f with
  | zero => intro pos o l rest _ h; exact absurd h (by simp [scanVarList])
  | succ f ih =>
    intro pos o l rest hf h
    simp only [scanVarList] at h
    split_ifs at h with h1 h2 h3
    · have hs : 4 ≤ varSkipLen (varGetLen d pos) := varSkipLen_ge_of_noStuck d hns pos h1
      exact ih _ o l rest (by omega) h
    · obtain ⟨he, ht⟩ := List.cons.inj h
      injection he with h4 h5
      subst h4
      subst h5
      rw [← ht]
      have hs : 4 ≤ varSkipLen (varGetLen d pos) := varSkipLen_ge_of_noStuck d hns pos h1
      exact scanVarList_fuel d key hns f (pageFuel d) _ (by omega)
        (by unfold pageFuel; omega)
    · have hs : 4 ≤ varSkipLen (varGetLen d pos) := varSkipLen_ge_of_noStuck d hns pos h1
      exact ih _ o l rest (by omega) h


/-! ### Shredding the first hit removes exactly it from the hit list -/

theorem scanFixedList_nil (rs key : Nat) :
    ∀ f pos, scanFixedList [] rs key f pos = [] := by
  intro f pos
  cases f with
  | zero => rfl
  | succ g => simp [scanFixedList]

theorem scanVarList_nil (key : Nat) :
    ∀ f pos, scanVarList [] key f pos = [] := by
  intro f pos
  cases f with
  | zero => rfl
  | succ g => simp [scanVarList]

theorem getPage_out (s : Store) (i : Nat) (h : s.pages.length ≤ i) :
    getPage s i = emptyPage := by
  simp [getPage, List.getD, List.getElem?_eq_none h]

theorem pageListFrom_empty (prev : Option Nat) (key : Nat) :
    pageListFrom emptyPage prev key = [] := by
  unfold pageListFrom emptyPage
  simp only [ne_eq]
  rw [if_neg (by simp)]
  exact scanVarList_nil key _ _

theorem scanFixedList_shred_head (d : List Nat) (rs key : Nat) (hrs : 4 ≤ rs) :
    ∀ f pos o l rest,
      scanFixedList d rs key f pos = (o, l) :: rest →
      scanFixedList (shredWordAt d o) rs key f pos = rest := by
  intro f
  induction f with
  | zero => intro pos o l rest h; exact absurd h (by simp [scanFixedList])
  | succ f ih =>
    intro pos o l rest h
    simp only [scanFixedList] at h ⊢
    rw [shredWordAt_length]
    split_ifs at h with h1 h2 h3
    · have hm : (o, l) ∈ scanFixedList d rs key f (pos + rs) := by
        rw [h]; exact List.mem_cons_self _ _
      obtain ⟨hpo, _⟩ := scanFixedList_mem d rs key f (pos + rs) o l hm
      have hw : wordAt (shredWordAt d o) pos = wordAt d pos :=
        wordAt_shredWordAt_of_disjoint d o pos (Or.inl (by omega))
      rw [if_pos h1, hw, if_pos h2]
      exact ih (pos + rs) o l rest h
    · obtain ⟨he, ht⟩ := List.cons.inj h
      injection he with h4 h5
      subst h4
      subst h5
      have hw0 : wordAt (shredWordAt d pos) pos = 0 :=
        wordAt_shredWordAt_self d pos (by omega)
      rw [if_pos h1, hw0, if_pos rfl]
      rw [← ht]
      apply scanFixedList_congr d (shredWordAt d pos) rs key (shredWordAt_length d pos)
        f (pos + rs)
      intro j hj
      rw [byteAt_shredWordAt]
      rw [if_neg (by omega)]
    · have hm : (o, l) ∈ scanFixedList d rs key f (pos + rs) := by
        rw [h]; exact List.mem_cons_self _ _
      obtain ⟨hpo, _⟩ := scanFixedList_mem d rs key f (pos + rs) o l hm
      have hw : wordAt (shredWordAt d o) pos = wordAt d pos :=
        wordAt_shredWordAt_of_disjoint d o pos (Or.inl (by omega))
      rw [if_pos h1, hw, if_neg h2, if_neg h3]
      exact ih (pos + rs) o l rest h

theorem scanVarList_shred_head (d : List Nat) (key : Nat) (hns : noStuck d) :
    ∀ f pos o l rest, 4 ≤ pos → o + 4 ≤ d.length →
      scanVarList d key f pos = (o, l) :: rest →
      scanVarList (shredWordAt d o) key f pos = rest := by
  intro f
  induction f with
  | zero => intro pos o l rest _ _ h; exact absurd h (by simp [scanVarList])
  | succ f ih =>
    intro pos o l rest hpos hrange h
    simp only [scanVarList] at h ⊢
    rw [shredWordAt_length]
    split_ifs at h with h1 h2 h3
    · have hs4 : varSkipLen (varGetLen d pos) = 4 := by rw [h2]; decide
      have hm : (o, l) ∈ scanVarList d key f (pos + varSkipLen (varGetLen d pos)) := by
        rw [h]; exact List.mem_cons_self _ _
      obtain ⟨hpo, _⟩ := scanVarList_mem d key f _ o l hm
      have hlr : varGetLen (shredWordAt d o) pos = varGetLen d pos := by
        unfold varGetLen
        exact wordAt_shredWordAt_of_disjoint d o (pos - 4) (Or.inl (by omega))
      rw [if_pos h1, hlr, if_pos h2]
      exact ih _ o l rest (by omega) hrange h
    · obtain ⟨he, ht⟩ := List.cons.inj h
      injection he with h4 h5
      subst h4
      subst h5
      have hlr : varGetLen (shredWordAt d pos) pos = varGetLen d pos := by
        unfold varGetLen
        exact wordAt_shredWordAt_of_disjoint d pos (pos - 4) (Or.inl (by omega))
      have hw0 : wordAt (shredWordAt d pos) pos = 0 :=
        wordAt_shredWordAt_self d pos hrange
      rw [if_pos h1, hlr, if_neg h2, hw0,
        if_neg (fun hc => hc.2.1 rfl)]
      rw [← ht]
      have hlt : varGetLen d pos < 4294967292 := by
        rcases hns (pos - 4) (by omega) with hl | hl
        · unfold varGetLen; exact hl
        · exact absurd hl h3.1
      have hsk : 8 ≤ varSkipLen (varGetLen d pos) :=
        varSkipLen_valid_ge _ h2 hlt
      apply scanVarList_congr d (shredWordAt d pos) key (shredWordAt_length d pos)
        f (pos + varSkipLen (varGetLen d pos))
      intro j hj
      rw [byteAt_shredWordAt]
      rw [if_neg (by omega)]
    · have hsk : 4 ≤ varSkipLen (varGetLen d pos) := varSkipLen_ge_of_noStuck d hns pos h1
      have hm : (o, l) ∈ scanVarList d key f (pos + varSkipLen (varGetLen d pos)) := by
        rw [h]; exact List.mem_cons_self _ _
      obtain ⟨hpo, _⟩ := scanVarList_mem d key f _ o l hm
      have hlr : varGetLen (shredWordAt d o) pos = varGetLen d pos := by
        unfold varGetLen
        exact wordAt_shredWordAt_of_disjoint d o (pos - 4) (Or.inl (by omega))
      have hw : wordAt (shredWordAt d o) pos = wordAt d pos :=
        wordAt_shredWordAt_of_disjoint d o pos (Or.inl (by omega))
      rw [if_pos h1, hlr, if_neg h2, hw, if_neg h3]
      exact ih _ o l rest (by omega) hrange h


/-! ### Store walk plumbing -/

theorem getPage_pages_congr (s1 s2 : Store) (h : s1.pages = s2.pages) (i : Nat) :
    getPage s1 i = getPage s2 i := by
  unfold getPage; rw [h]

theorem firstPageIdx_pages_congr (s1 s2 : Store) (h : s1.pages = s2.pages) (id : Nat) :
    firstPageIdx s1 id = firstPageIdx s2 id := by
  unfold firstPageIdx; rw [h]

theorem nextPageIdx_pages_congr (s1 s2 : Store) (h : s1.pages = s2.pages) (i : Nat) :
    nextPageIdx s1 i = nextPageIdx s2 i := by
  unfold nextPageIdx
  rw [h, getPage_pages_congr s1 s2 h]

theorem storeListFrom_pages_congr (s1 s2 : Store) (h : s1.pages = s2.pages) (key : Nat) :
    ∀ fuel i prev, storeListFrom s1 key fuel i prev = storeListFrom s2 key fuel i prev := by
  intro fuel
  induction fuel with
  | zero => intro i prev; rfl
  | succ f ih =>
    intro i prev
    simp only [storeListFrom]
    rw [getPage_pages_congr s1 s2 h, nextPageIdx_pages_congr s1 s2 h]
    cases hn : nextPageIdx s2 i with
    | none => rfl
    | some j =>
      have := ih j (none : Option Nat)
      simp only [this]

theorem storeMatchList_pages_congr (s1 s2 : Store) (h : s1.pages = s2.pages) (id key : Nat) :
    storeMatchList s1 id key = storeMatchList s2 id key := by
  unfold storeMatchList
  rw [firstPageIdx_pages_congr s1 s2 h]
  cases hn : firstPageIdx s2 id with
  | none => rfl
  | some i =>
    have hl : s1.pages.length = s2.pages.length := by rw [h]
    simp only [hl, storeListFrom_pages_congr s1 s2 h key]

theorem storeListAfter_pages_congr (s1 s2 : Store) (h : s1.pages = s2.pages)
    (loc : Loc) (key : Nat) :
    storeListAfter s1 loc key = storeListAfter s2 loc key := by
  unfold storeListAfter
  have hl : s1.pages.length = s2.pages.length := by rw [h]
  rw [hl, storeListFrom_pages_congr s1 s2 h]

theorem notifyStore_pages (s : Store) (id : Nat) : (notifyStore s id).pages = s.pages := rfl

theorem findIdx?_some_lt {α : Type} (p : α → Bool) :
    ∀ (l : List α) (st k : Nat), l.findIdx? p st = some k → st ≤ k ∧ k < st + l.length := by
  intro l
  induction l with
  | nil => intro st k h; simp at h
  | cons a t ih =>
    intro st k h
    rw [List.findIdx?_cons] at h
    by_cases hp : p a
    · rw [if_pos hp] at h
      injection h with h1
      subst h1
      exact ⟨le_refl _, by simp only [List.length_cons]; omega⟩
    · rw [if_neg hp] at h
      obtain ⟨h1, h2⟩ := ih (st + 1) k h
      exact ⟨by omega, by simp only [List.length_cons]; omega⟩

theorem nextPageIdx_some (s : Store) (i j : Nat) (h : nextPageIdx s i = some j) :
    i + 1 ≤ j ∧ j < s.pages.length := by
  unfold nextPageIdx at h
  split at h
  · exact absurd h (by simp)
  · next k hf =>
    injection h with h1
    obtain ⟨_, h2⟩ := findIdx?_some_lt _ _ 0 k hf
    rw [List.length_drop] at h2
    constructor
    · omega
    · omega

theorem nextPageIdx_out (s : Store) (i : Nat) (h : s.pages.length ≤ i + 1) :
    nextPageIdx s i = none := by
  unfold nextPageIdx
  rw [List.drop_eq_nil_of_le h]
  rfl

theorem storeListFrom_fuel (s : Store) (key : Nat) :
    ∀ f1 f2 i prev, s.pages.length ≤ i + f1 → s.pages.length ≤ i + f2 →
      storeListFrom s key f1 i prev = storeListFrom s key f2 i prev := by
  intro f1
  induction f1 with
  | zero =>
    intro f2 i prev h1 h2
    cases f2 with
    | zero => rfl
    | succ g =>
      simp only [storeListFrom]
      rw [getPage_out s i (by omega), pageListFrom_empty,
        nextPageIdx_out s i (by omega)]
      simp
  | succ f ih =>
    intro f2 i prev h1 h2
    cases f2 with
    | zero =>
      simp only [storeListFrom]
      rw [getPage_out s i (by omega), pageListFrom_empty,
        nextPageIdx_out s i (by omega)]
      simp
    | succ g =>
      simp only [storeListFrom]
      cases hn : nextPageIdx s i with
      | none => rfl
      | some j =>
        obtain ⟨hj1, hj2⟩ := nextPageIdx_some s i j hn
        have := ih g j (none : Option Nat) (by omega) (by omega)
        simp only [this]

theorem storeListFrom_mem (s : Store) (key : Nat) :
    ∀ fuel i prev e, e ∈ storeListFrom s key fuel i prev →
      i ≤ e.1.page ∧ e.1.page < s.pages.length ∧
        ((e.1.page = i ∧ (e.1.off, e.2) ∈ pageListFrom (getPage s i) prev key) ∨
          (i < e.1.page ∧ (e.1.off, e.2) ∈ pageListFrom (getPage s e.1.page) none key)) := by
  intro fuel
  induction fuel with
  | zero => intro i prev e h; simp [storeListFrom] at h
  | succ f ih =>
    intro i prev e h
    simp only [storeListFrom] at h
    rcases List.mem_append.mp h with hh | hc
    · rcases List.mem_map.mp hh with ⟨a, ha, hae⟩
      subst hae
      refine ⟨le_refl _, ?_, Or.inl ⟨rfl, ?_⟩⟩
      · by_contra hge
        push_neg at hge
        rw [getPage_out s i hge, pageListFrom_empty] at ha
        exact absurd ha (List.not_mem_nil _)
      · simpa using ha
    · cases hn : nextPageIdx s i with
      | none =>
        rw [hn] at hc
        dsimp only at hc
        exact absurd hc (List.not_mem_nil _)
      | some j =>
        rw [hn] at hc
        dsimp only at hc
        obtain ⟨hj1, hj2⟩ := nextPageIdx_some s i j hn
        obtain ⟨h1, h2, h3⟩ := ih j none e hc
        refine ⟨by omega, h2, Or.inr ⟨by omega, ?_⟩⟩
        rcases h3 with ⟨hpe, hm⟩ | ⟨_, hm⟩
        · rw [hpe]; exact hm
        · exact hm

theorem storeListFrom_setPageData_below (s : Store) (i : Nat) (d : List Nat) (key : Nat) :
    ∀ fuel j prev, i < j →
      storeListFrom (setPageData s i d) key fuel j prev = storeListFrom s key fuel j prev := by
  intro fuel
  induction fuel with
  | zero => intro j prev _; rfl
  | succ f ih =>
    intro j prev hij
    simp only [storeListFrom]
    rw [getPage_setPageData_ne s i j d (by omega), nextPageIdx_setPageData]
    cases hn : nextPageIdx s j with
    | none => rfl
    | some k =>
      obtain ⟨hk1, _⟩ := nextPageIdx_some s j k hn
      have := ih k (none : Option Nat) (by omega)
      simp only [this]

theorem pageListFrom_mem_fixed (p : Page) (prev : Option Nat) (key o l : Nat)
    (hrs : p.recordSize ≠ 0) (h : (o, l) ∈ pageListFrom p prev key) :
    o + p.recordSize < p.data.length ∧ l = p.recordSize ∧ wordAt p.data o ≠ 0 ∧
      wordAt p.data o ≠ ones32 ∧ (key = 0 ∨ wordAt p.data o = key) := by
  unfold pageListFrom at h
  rw [if_pos hrs] at h
  obtain ⟨_, h2, h3, h4, h5, h6⟩ := scanFixedList_mem _ _ _ _ _ o l h
  exact ⟨h2, h3, h4, h5, h6⟩

theorem pageListFrom_mem_var (p : Page) (key o l : Nat)
    (hrs : p.recordSize = 0) (h : (o, l) ∈ pageListFrom p none key) :
    4 ≤ o ∧ o < p.data.length ∧ varGetLen p.data o = l ∧ l ≠ 0 ∧ l ≠ ones32 ∧
      wordAt p.data o ≠ 0 ∧ (key = 0 ∨ wordAt p.data o = key) := by
  unfold pageListFrom at h
  rw [if_neg (by simp [hrs])] at h
  obtain ⟨h1, h2, h3, h4, h5, h6, h7⟩ := scanVarList_mem _ _ _ _ o l h
  exact ⟨h1, h2, h3, h4, h5, h6, h7⟩


/-! ### The number of matches is bounded by the delete fuel -/

theorem scanFixedList_length (d : List Nat) (rs key : Nat) :
    ∀ f pos, (scanFixedList d rs key f pos).length ≤ f := by
  intro f
  induction f with
  | zero => intro pos; simp [scanFixedList]
  | succ f ih =>
    intro pos
    simp only [scanFixedList]
    split_ifs
    · exact le_trans (ih _) (by omega)
    · simp only [List.length_cons]
      exact Nat.succ_le_succ (ih _)
    · exact le_trans (ih _) (by omega)
    · simp

theorem scanVarList_length (d : List Nat) (key : Nat) :
    ∀ f pos, (scanVarList d key f pos).length ≤ f := by
  intro f
  induction f with
  | zero => intro pos; simp [scanVarList]
  | succ f ih =>
    intro pos
    simp only [scanVarList]
    split_ifs
    · exact le_trans (ih _) (by omega)
    · simp only [List.length_cons]
      exact Nat.succ_le_succ (ih _)
    · exact le_trans (ih _) (by omega)
    · simp

theorem pageListFrom_length (p : Page) (prev : Option Nat) (key : Nat) :
    (pageListFrom p prev key).length ≤ pageFuel p.data := by
  unfold pageListFrom
  split_ifs
  · exact scanFixedList_length _ _ _ _ _
  · exact scanVarList_length _ _ _ _

theorem foldl_add_init {α : Type} (f : α → Nat) :
    ∀ (l : List α) (a : Nat), l.foldl (fun n x => n + f x) a = a + (l.map f).sum := by
  intro l
  induction l with
  | nil => intro a; simp
  | cons x t ih =>
    intro a
    simp only [List.foldl_cons, List.map_cons, List.sum_cons]
    rw [ih]
    omega

theorem getPage_in (s : Store) (i : Nat) (h : i < s.pages.length) :
    getPage s i = s.pages.get ⟨i, h⟩ := by
  simp [getPage, List.getD, List.getElem?_eq_getElem h, List.get_eq_getElem]

theorem getPage_mem (s : Store) (i : Nat) (h : i < s.pages.length) :
    getPage s i ∈ s.pages := by
  rw [getPage_in s i h]
  exact List.get_mem _ _ _

theorem drop_map_sum_step (s : Store) (i : Nat) (h : i < s.pages.length) :
    ((s.pages.drop i).map (fun p => pageFuel p.data)).sum =
      pageFuel (getPage s i).data +
        ((s.pages.drop (i + 1)).map (fun p => pageFuel p.data)).sum := by
  rw [List.drop_eq_getElem_cons h]
  simp only [List.map_cons, List.sum_cons]
  congr 2
  rw [getPage_in s i h, List.get_eq_getElem]

theorem drop_map_sum_le_succ (s : Store) (i : Nat) :
    ((s.pages.drop (i + 1)).map (fun p => pageFuel p.data)).sum ≤
      ((s.pages.drop i).map (fun p => pageFuel p.data)).sum := by
  by_cases h : i < s.pages.length
  · rw [drop_map_sum_step s i h]; omega
  · rw [List.drop_eq_nil_of_le (by omega), List.drop_eq_nil_of_le (by omega)]

theorem drop_map_sum_mono (s : Store) :
    ∀ k i, ((s.pages.drop (i + k)).map (fun p => pageFuel p.data)).sum ≤
      ((s.pages.drop i).map (fun p => pageFuel p.data)).sum := by
  intro k
  induction k with
  | zero => intro i; exact le_refl _
  | succ k ih =>
    intro i
    have h1 := ih (i + 1)
    have h2 := drop_map_sum_le_succ s i
    have he : i + 1 + k = i + (k + 1) := by omega
    rw [he] at h1
    exact le_trans h1 h2

theorem storeListFrom_length (s : Store) (key : Nat) :
    ∀ fuel i prev, (storeListFrom s key fuel i prev).length ≤
      ((s.pages.drop i).map (fun p => pageFuel p.data)).sum := by
  intro fuel
  induction fuel with
  | zero => intro i prev; simp [storeListFrom]
  | succ f ih =>
    intro i prev
    simp only [storeListFrom]
    rw [List.length_append, List.length_map]
    cases hn : nextPageIdx s i with
    | none =>
      dsimp only
      by_cases h : i < s.pages.length
      · rw [drop_map_sum_step s i h]
        have := pageListFrom_length (getPage s i) prev key
        simp only [List.length_nil]
        omega
      · rw [getPage_out s i (by omega), pageListFrom_empty]
        simp
    | some j =>
      dsimp only
      obtain ⟨hj1, hj2⟩ := nextPageIdx_some s i j hn
      have hc := ih j (none : Option Nat)
      have hp := pageListFrom_length (getPage s i) prev key
      have hlt : i < s.pages.length := by omega
      rw [drop_map_sum_step s i hlt]
      have hmono : ((s.pages.drop j).map (fun p => pageFuel p.data)).sum ≤
          ((s.pages.drop (i + 1)).map (fun p => pageFuel p.data)).sum := by
        have hd := drop_map_sum_mono s (j - (i + 1)) (i + 1)
        have he : i + 1 + (j - (i + 1)) = j := by omega
        rw [he] at hd
        exact hd
      omega

theorem storeMatchList_length_lt (s : Store) (id key : Nat) :
    (storeMatchList s id key).length < storeFuel s := by
  unfold storeMatchList storeFuel
  have hsum : s.pages.foldl (fun n p => n + pageFuel p.data) 0 =
      ((s.pages.drop 0).map (fun p => pageFuel p.data)).sum := by
    rw [List.drop_zero]
    have hf := foldl_add_init (fun p => pageFuel p.data) s.pages 0
    simpa using hf
  cases hn : firstPageIdx s id with
  | none =>
    dsimp only
    simp only [List.length_nil]
    omega
  | some i =>
    dsimp only
    have h := storeListFrom_length s key (s.pages.length + 1) i none
    have hmono : ((s.pages.drop i).map (fun p => pageFuel p.data)).sum ≤
        ((s.pages.drop 0).map (fun p => pageFuel p.data)).sum := by
      have hd := drop_map_sum_mono s i 0
      simpa using hd
    omega


/-! ### Shredding preserves the store invariants -/

theorem byteAt_le (d : List Nat) (hb : ∀ b ∈ d, b < 256) (k : Nat) : byteAt d k ≤ 255 := by
  unfold byteAt
  cases h : d[k]? with
  | none => simp [List.getD, List.get?_eq_getElem?, h]
  | some b =>
    have hbm : b ∈ d := by
      obtain ⟨hlt, heq⟩ := List.getElem?_eq_some.mp h
      rw [← heq]
      exact List.getElem_mem hlt
    have hlt := hb b hbm
    simp only [List.getD, List.get?_eq_getElem?, h, Option.getD_some]
    omega

theorem byteAt_shred_le (d : List Nat) (o : Nat) (hb : ∀ b ∈ d, b < 256) (k : Nat) :
    byteAt (shredWordAt d o) k ≤ 255 := by
  rw [byteAt_shredWordAt]
  split_ifs
  · omega
  · exact byteAt_le d hb k

theorem noStuck_shred (d : List Nat) (o : Nat) (hns : noStuck d) (hb : ∀ b ∈ d, b < 256) :
    noStuck (shredWordAt d o) := by
  intro j hj
  rw [shredWordAt_length] at hj
  by_cases hd : j + 4 ≤ o ∨ o + 4 ≤ j
  · rw [wordAt_shredWordAt_of_disjoint d o j hd]
    exact hns j hj
  · push_neg at hd
    obtain ⟨h1, h2⟩ := hd
    by_cases ho : o < d.length
    · left
      have hb0 := byteAt_shred_le d o hb j
      have hb1 := byteAt_shred_le d o hb (j + 1)
      have hb2 := byteAt_shred_le d o hb (j + 2)
      have hb3 := byteAt_shred_le d o hb (j + 3)
      have hzero : byteAt (shredWordAt d o) j = 0 ∨
          byteAt (shredWordAt d o) (j + 1) = 0 ∨ byteAt (shredWordAt d o) (j + 2) = 0 ∨
            byteAt (shredWordAt d o) (j + 3) = 0 := by
        by_cases hc : o ≤ j
        · exact Or.inl (by rw [byteAt_shredWordAt, if_pos (by omega)])
        · have h3 : o = j + 1 ∨ o = j + 2 ∨ o = j + 3 := by omega
          rcases h3 with h3 | h3 | h3
          · refine Or.inr (Or.inl ?_)
            rw [byteAt_shredWordAt, if_pos (by omega)]
          · refine Or.inr (Or.inr (Or.inl ?_))
            rw [byteAt_shredWordAt, if_pos (by omega)]
          · refine Or.inr (Or.inr (Or.inr ?_))
            rw [byteAt_shredWordAt, if_pos (by omega)]
      unfold wordAt
      rcases hzero with hz | hz | hz | hz <;> omega
    · rw [wordAt_congr4 d (shredWordAt d o) j
        (by rw [byteAt_shredWordAt, if_neg (by omega)])
        (by rw [byteAt_shredWordAt, if_neg (by omega)])
        (by rw [byteAt_shredWordAt, if_neg (by omega)])
        (by rw [byteAt_shredWordAt, if_neg (by omega)])]
      exact hns j hj

theorem mem_shredWordAt (d : List Nat) (o : Nat) (x : Nat) (hx : x ∈ shredWordAt d o) :
    x ∈ d ∨ x = 0 := by
  rw [shredWordAt_eq] at hx
  rcases List.mem_or_eq_of_mem_set hx with hx | hx
  · rcases List.mem_or_eq_of_mem_set hx with hx | hx
    · rcases List.mem_or_eq_of_mem_set hx with hx | hx
      · rcases List.mem_or_eq_of_mem_set hx with hx | hx
        · exact Or.inl hx
        · exact Or.inr hx
      · exact Or.inr hx
    · exact Or.inr hx
  · exact Or.inr hx

theorem bytesLt256_shred (s : Store) (loc : Loc) (hb : bytesLt256 s) :
    bytesLt256 (shredRecordStore s loc) := by
  intro p hp b hbp
  unfold shredRecordStore setPageData at hp
  rcases List.mem_or_eq_of_mem_set hp with hp1 | hpe
  · exact hb p hp1 b hbp
  · subst hpe
    rcases mem_shredWordAt _ _ b hbp with hbm | hb0
    · by_cases hl : loc.page < s.pages.length
      · exact hb _ (getPage_mem s loc.page hl) b hbm
      · rw [getPage_out s loc.page (by omega)] at hbm
        exact absurd hbm (List.not_mem_nil _)
    · omega

theorem storeWf_shred (s : Store) (loc : Loc) (hwf : storeWf s) (hb : bytesLt256 s) :
    storeWf (shredRecordStore s loc) := by
  intro p hp
  unfold shredRecordStore setPageData at hp
  rcases List.mem_or_eq_of_mem_set hp with hp1 | hpe
  · exact hwf p hp1
  · subst hpe
    by_cases hl : loc.page < s.pages.length
    · have hw := hwf _ (getPage_mem s loc.page hl)
      have hbb : ∀ b ∈ (getPage s loc.page).data, b < 256 :=
        hb _ (getPage_mem s loc.page hl)
      constructor
      · intro hrs0
        exact noStuck_shred _ _ (hw.1 hrs0) hbb
      · intro hrs
        exact hw.2 hrs
    · rw [getPage_out s loc.page (by omega)]
      constructor
      · intro _
        intro j hj
        rw [shredWordAt_length] at hj
        simp [emptyPage] at hj
      · intro hrs
        exact absurd rfl hrs

theorem shredRecordStore_pages_length (s : Store) (loc : Loc) :
    (shredRecordStore s loc).pages.length = s.pages.length := by
  unfold shredRecordStore
  exact setPageData_pages_length _ _ _

theorem getPage_shredRecordStore_id (s : Store) (loc : Loc) (i : Nat) :
    (getPage (shredRecordStore s loc) i).id = (getPage s i).id := by
  unfold shredRecordStore
  exact getPage_setPageData_id _ _ _ _

theorem getPage_shredRecordStore_recordSize (s : Store) (loc : Loc) (i : Nat) :
    (getPage (shredRecordStore s loc) i).recordSize = (getPage s i).recordSize := by
  unfold shredRecordStore
  exact getPage_setPageData_recordSize _ _ _ _

theorem getPage_shredRecordStore_data_length (s : Store) (loc : Loc) (i : Nat) :
    (getPage (shredRecordStore s loc) i).data.length = (getPage s i).data.length := by
  unfold shredRecordStore
  by_cases h : loc.page = i
  · subst h
    by_cases hl : loc.page < s.pages.length
    · rw [getPage_setPageData_self _ _ _ hl]
      exact shredWordAt_length _ _
    · rw [setPageData_out _ _ _ (by omega)]
  · rw [getPage_setPageData_ne _ _ _ _ h]

theorem byteAt_getPage_shred (s : Store) (loc : Loc) (i k : Nat) :
    byteAt (getPage (shredRecordStore s loc) i).data k = byteAt (getPage s i).data k ∨
      byteAt (getPage (shredRecordStore s loc) i).data k = 0 := by
  unfold shredRecordStore
  by_cases h : loc.page = i
  · subst h
    by_cases hl : loc.page < s.pages.length
    · rw [getPage_setPageData_self _ _ _ hl]
      dsimp only
      rw [byteAt_shredWordAt]
      split_ifs
      · exact Or.inr rfl
      · exact Or.inl rfl
    · rw [setPageData_out _ _ _ (by omega)]
      exact Or.inl rfl
  · rw [getPage_setPageData_ne _ _ _ _ h]
    exact Or.inl rfl


/-! ### Decomposing the store walk at its first hit -/

theorem pageFuel_shred (d : List Nat) (o : Nat) :
    pageFuel (shredWordAt d o) = pageFuel d := by
  unfold pageFuel
  rw [shredWordAt_length]

theorem pageListFrom_tail (p : Page) (prev : Option Nat) (key o l : Nat)
    (ptail : List (Nat × Nat)) (hwf : pageWf p)
    (h : pageListFrom p prev key = (o, l) :: ptail) :
    ptail = pageListFrom p (some o) key := by
  unfold pageListFrom at h ⊢
  by_cases hrs : p.recordSize ≠ 0
  · rw [if_pos hrs] at h ⊢
    have h4 : 4 ≤ p.recordSize := hwf.2 hrs
    exact scanFixedList_tail p.data p.recordSize key (by omega) (pageFuel p.data) _ o l ptail
      (by unfold pageFuel; omega) h
  · rw [if_neg hrs] at h ⊢
    push_neg at hrs
    have hns := hwf.1 hrs
    have hteq := scanVarList_tail p.data key hns (pageFuel p.data) _ o l ptail
      (by unfold pageFuel; omega) h
    have hm0 : (o, l) ∈ (o, l) :: ptail := List.mem_cons_self _ _
    rw [← h] at hm0
    obtain ⟨_, _, hlen, _⟩ := scanVarList_mem p.data key (pageFuel p.data) _ o l hm0
    rw [hteq]
    dsimp only
    rw [hlen]

theorem storeListFrom_head_tail (s : Store) (key : Nat) (hwf : storeWf s) :
    ∀ fuel i prev loc len rest,
      s.pages.length ≤ i + fuel →
      storeListFrom s key fuel i prev = (loc, len) :: rest →
      rest = storeListAfter s loc key := by
  intro fuel
  induction fuel with
  | zero => intro i prev loc len rest _ h; exact absurd h (by simp [storeListFrom])
  | succ f ih =>
    intro i prev loc len rest hb h
    simp only [storeListFrom] at h
    cases hp : pageListFrom (getPage s i) prev key with
    | nil =>
      rw [hp] at h
      simp only [List.map_nil, List.nil_append] at h
      cases hn : nextPageIdx s i with
      | none => rw [hn] at h; exact absurd h (by simp)
      | some j =>
        rw [hn] at h
        dsimp only at h
        obtain ⟨hj1, hj2⟩ := nextPageIdx_some s i j hn
        exact ih j none loc len rest (by omega) h
    | cons a ptail =>
      obtain ⟨o, l⟩ := a
      rw [hp] at h
      simp only [List.map_cons, List.cons_append] at h
      obtain ⟨he, ht⟩ := List.cons.inj h
      injection he with he1 he2
      subst he1
      subst he2
      rw [← ht]
      have hil : i < s.pages.length := by
        by_contra hge
        push_neg at hge
        rw [getPage_out s i hge, pageListFrom_empty] at hp
        exact absurd hp (by simp)
      have hpt : ptail = pageListFrom (getPage s i) (some o) key :=
        pageListFrom_tail (getPage s i) prev key o l ptail (hwf _ (getPage_mem s i hil)) hp
      unfold storeListAfter
      dsimp only
      simp only [storeListFrom]
      rw [← hpt]
      cases hn : nextPageIdx s i with
      | none => rfl
      | some j =>
        dsimp only
        obtain ⟨hj1, hj2⟩ := nextPageIdx_some s i j hn
        rw [storeListFrom_fuel s key f s.pages.length j none (by omega) (by omega)]

theorem storeListFrom_shred_head (s : Store) (key : Nat) (hwf : storeWf s) :
    ∀ fuel i loc len rest,
      s.pages.length ≤ i + fuel →
      loc.off + 4 ≤ (getPage s loc.page).data.length →
      storeListFrom s key fuel i none = (loc, len) :: rest →
      storeListFrom (shredRecordStore s loc) key fuel i none = rest := by
  intro fuel
  induction fuel with
  | zero => intro i loc len rest _ _ h; exact absurd h (by simp [storeListFrom])
  | succ f ih =>
    intro i loc len rest hb hrange h
    simp only [storeListFrom] at h
    cases hp : pageListFrom (getPage s i) none key with
    | nil =>
      rw [hp] at h
      simp only [List.map_nil, List.nil_append] at h
      cases hn : nextPageIdx s i with
      | none => rw [hn] at h; exact absurd h (by simp)
      | some j =>
        rw [hn] at h
        dsimp only at h
        obtain ⟨hj1, hj2⟩ := nextPageIdx_some s i j hn
        have hmem : (loc, len) ∈ storeListFrom s key f j none := by
          rw [h]; exact List.mem_cons_self _ _
        obtain ⟨hjp, _, _⟩ := storeListFrom_mem s key f j none (loc, len) hmem
        have hjp2 : j ≤ loc.page := hjp
        have hgi : getPage (shredRecordStore s loc) i = getPage s i := by
          unfold shredRecordStore
          exact getPage_setPageData_ne s loc.page i _ (by omega)
        have hni : nextPageIdx (shredRecordStore s loc) i = nextPageIdx s i := by
          unfold shredRecordStore
          exact nextPageIdx_setPageData s loc.page i _
        simp only [storeListFrom]
        rw [hgi, hp, hni, hn]
        simp only [List.map_nil, List.nil_append]
        exact ih j loc len rest (by omega) hrange h
    | cons a ptail =>
      obtain ⟨o, l⟩ := a
      rw [hp] at h
      simp only [List.map_cons, List.cons_append] at h
      obtain ⟨he, ht⟩ := List.cons.inj h
      injection he with he1 he2
      subst he1
      subst he2
      have hil : i < s.pages.length := by
        by_contra hge
        push_neg at hge
        rw [getPage_out s i hge, pageListFrom_empty] at hp
        exact absurd hp (by simp)
      have hsrs : shredRecordStore s (Loc.mk i o) =
          setPageData s i (shredWordAt (getPage s i).data o) := rfl
      rw [hsrs]
      simp only [storeListFrom]
      have hgi : getPage (setPageData s i (shredWordAt (getPage s i).data o)) i =
          { getPage s i with data := shredWordAt (getPage s i).data o } :=
        getPage_setPageData_self s i _ hil
      rw [hgi]
      have hpw := hwf _ (getPage_mem s i hil)
      have hpt : pageListFrom
          { getPage s i with data := shredWordAt (getPage s i).data o } none key = ptail := by
        unfold pageListFrom
        dsimp only
        by_cases hrs : (getPage s i).recordSize ≠ 0
        · rw [if_pos hrs, pageFuel_shred]
          unfold pageListFrom at hp
          rw [if_pos hrs] at hp
          exact scanFixedList_shred_head (getPage s i).data (getPage s i).recordSize key
            (hpw.2 hrs) (pageFuel (getPage s i).data) 0 o l ptail hp
        · rw [if_neg hrs, pageFuel_shred]
          push_neg at hrs
          unfold pageListFrom at hp
          rw [if_neg (by simp [hrs])] at hp
          exact scanVarList_shred_head (getPage s i).data key (hpw.1 hrs)
            (pageFuel (getPage s i).data) 4 o l ptail (by omega) hrange hp
      rw [hpt]
      have hni : nextPageIdx (setPageData s i (shredWordAt (getPage s i).data o)) i =
          nextPageIdx s i := nextPageIdx_setPageData s i i _
      rw [hni]
      cases hn : nextPageIdx s i with
      | none =>
        rw [hn] at ht
        dsimp only at ht
        dsimp only
        exact ht
      | some j =>
        rw [hn] at ht
        dsimp only at ht
        dsimp only
        obtain ⟨hj1, _⟩ := nextPageIdx_some s i j hn
        rw [storeListFrom_setPageData_below s i _ key f j none hj1]
        exact ht

theorem storeListAfter_shred_self (s : Store) (key : Nat) (hwf : storeWf s)
    (loc : Loc) (len : Nat)
    (hlp : loc.page < s.pages.length)
    (hm : (loc.off, len) ∈ pageListFrom (getPage s loc.page) none key)
    (hrange : loc.off + 4 ≤ (getPage s loc.page).data.length) :
    storeListAfter (shredRecordStore s loc) loc key = storeListAfter s loc key := by
  unfold storeListAfter
  rw [shredRecordStore_pages_length]
  simp only [storeListFrom]
  have hgi : getPage (shredRecordStore s loc) loc.page =
      { getPage s loc.page with data := shredWordAt (getPage s loc.page).data loc.off } := by
    unfold shredRecordStore
    exact getPage_setPageData_self s loc.page _ hlp
  rw [hgi]
  have hpw := hwf _ (getPage_mem s loc.page hlp)
  have hpeq : pageListFrom
      { getPage s loc.page with data := shredWordAt (getPage s loc.page).data loc.off }
      (some loc.off) key = pageListFrom (getPage s loc.page) (some loc.off) key := by
    unfold pageListFrom
    dsimp only
    by_cases hrs : (getPage s loc.page).recordSize ≠ 0
    · rw [if_pos hrs, if_pos hrs, pageFuel_shred]
      have h4 : 4 ≤ (getPage s loc.page).recordSize := hpw.2 hrs
      apply scanFixedList_congr _ _ _ _ (shredWordAt_length _ _)
      intro j hj
      rw [byteAt_shredWordAt]
      rw [if_neg (by omega)]
    · rw [if_neg hrs, if_neg hrs, pageFuel_shred]
      push_neg at hrs
      have hns := hpw.1 hrs
      obtain ⟨ho4, holt, hlen, hl0, hlo, _⟩ := pageListFrom_mem_var _ key _ _ hrs hm
      have hlr : varGetLen (shredWordAt (getPage s loc.page).data loc.off) loc.off =
          varGetLen (getPage s loc.page).data loc.off := by
        unfold varGetLen
        exact wordAt_shredWordAt_of_disjoint _ _ _ (Or.inl (by omega))
      rw [hlr]
      have hltb : varGetLen (getPage s loc.page).data loc.off < 4294967292 := by
        unfold varGetLen
        rcases hns (loc.off - 4) (by omega) with hx | hx
        · exact hx
        · exfalso
          apply hlo
          rw [← hlen]
          unfold varGetLen
          exact hx
      have hsk : 8 ≤ varSkipLen (varGetLen (getPage s loc.page).data loc.off) :=
        varSkipLen_valid_ge _ (by rw [hlen]; exact hl0) hltb
      apply scanVarList_congr _ _ _ (shredWordAt_length _ _)
      intro j hj
      rw [byteAt_shredWordAt]
      rw [if_neg (by omega)]
  rw [hpeq]
  have hni : nextPageIdx (shredRecordStore s loc) loc.page = nextPageIdx s loc.page := by
    unfold shredRecordStore
    exact nextPageIdx_setPageData s loc.page loc.page _
  rw [hni]
  cases hn : nextPageIdx s loc.page with
  | none => rfl
  | some j =>
    dsimp only
    obtain ⟨hj1, _⟩ := nextPageIdx_some s loc.page j hn
    have hbelow : storeListFrom (shredRecordStore s loc) key s.pages.length j none =
        storeListFrom s key s.pages.length j none := by
      unfold shredRecordStore
      exact storeListFrom_setPageData_below s loc.page _ key s.pages.length j none hj1
    rw [hbelow]


/-! ### The delete loop -/

theorem deleteLoop_frame (key : Nat) :
    ∀ fuel s loc,
      (deleteLoop key fuel s loc).pages.length = s.pages.length ∧
      (∀ i, (getPage (deleteLoop key fuel s loc) i).id = (getPage s i).id ∧
        (getPage (deleteLoop key fuel s loc) i).recordSize = (getPage s i).recordSize ∧
        (getPage (deleteLoop key fuel s loc) i).data.length = (getPage s i).data.length) ∧
      (∀ i k, byteAt (getPage (deleteLoop key fuel s loc) i).data k =
          byteAt (getPage s i).data k ∨
        byteAt (getPage (deleteLoop key fuel s loc) i).data k = 0) := by
  intro fuel
  induction fuel with
  | zero => intro s loc; exact ⟨rfl, fun i => ⟨rfl, rfl, rfl⟩, fun i k => Or.inl rfl⟩
  | succ f ih =>
    intro s loc
    simp only [deleteLoop]
    cases hn : findUnorderedNext (shredRecordStore s loc) loc key with
    | none =>
      exact ⟨shredRecordStore_pages_length s loc,
        fun i => ⟨getPage_shredRecordStore_id s loc i,
          getPage_shredRecordStore_recordSize s loc i,
          getPage_shredRecordStore_data_length s loc i⟩,
        fun i k => byteAt_getPage_shred s loc i k⟩
    | some l2 =>
      obtain ⟨loc2, len2⟩ := l2
      dsimp only
      obtain ⟨ih1, ih2, ih3⟩ := ih (shredRecordStore s loc) loc2
      refine ⟨?_, ?_, ?_⟩
      · rw [ih1, shredRecordStore_pages_length]
      · intro i
        obtain ⟨a1, a2, a3⟩ := ih2 i
        exact ⟨by rw [a1, getPage_shredRecordStore_id],
          by rw [a2, getPage_shredRecordStore_recordSize],
          by rw [a3, getPage_shredRecordStore_data_length]⟩
      · intro i k
        rcases ih3 i k with hbb | hbb
        · rw [hbb]
          exact byteAt_getPage_shred s loc i k
        · exact Or.inr hbb

theorem deleteLoop_word_zero (key fuel : Nat) (s : Store) (loc l0 : Loc)
    (hz : storeWordAt s l0 = 0) :
    storeWordAt (deleteLoop key fuel s loc) l0 = 0 := by
  unfold storeWordAt at hz ⊢
  obtain ⟨hb0, hb1, hb2, hb3⟩ := wordAt_zero_bytes _ _ hz
  obtain ⟨_, _, hbytes⟩ := deleteLoop_frame key fuel s loc
  unfold wordAt
  have h0 := hbytes l0.page l0.off
  have h1 := hbytes l0.page (l0.off + 1)
  have h2 := hbytes l0.page (l0.off + 2)
  have h3 := hbytes l0.page (l0.off + 3)
  omega

theorem deleteLoop_clears (id key : Nat) :
    ∀ fuel s loc len rest,
      storeWf s → bytesLt256 s →
      storeMatchList s id key = (loc, len) :: rest →
      (∀ e ∈ storeMatchList s id key, e.1.off + 4 ≤ (getPage s e.1.page).data.length) →
      rest.length < fuel →
      storeMatchList (deleteLoop key fuel s loc) id key = [] ∧
      (∀ e ∈ storeMatchList s id key, storeWordAt (deleteLoop key fuel s loc) e.1 = 0) := by
  intro fuel
  induction fuel with
  | zero => intro s loc len rest _ _ _ _ hlt; omega
  | succ f ih =>
    intro s loc len rest hwf hb hhead hir hlt
    have hmem : (loc, len) ∈ storeMatchList s id key := by
      rw [hhead]; exact List.mem_cons_self _ _
    have hrange : loc.off + 4 ≤ (getPage s loc.page).data.length := hir (loc, len) hmem
    cases hfi : firstPageIdx s id with
    | none =>
      exfalso
      unfold storeMatchList at hhead
      rw [hfi] at hhead
      exact absurd hhead (by simp)
    | some i0 =>
      have hlf : storeListFrom s key (s.pages.length + 1) i0 none = (loc, len) :: rest := by
        unfold storeMatchList at hhead
        rw [hfi] at hhead
        exact hhead
      have hmem0 : (loc, len) ∈ storeListFrom s key (s.pages.length + 1) i0 none := by
        rw [hlf]; exact List.mem_cons_self _ _
      obtain ⟨hi0le, hlp, hcase⟩ := storeListFrom_mem s key _ i0 none (loc, len) hmem0
      have hlp2 : loc.page < s.pages.length := hlp
      have hpm : (loc.off, len) ∈ pageListFrom (getPage s loc.page) none key := by
        rcases hcase with ⟨hpe, hm⟩ | ⟨_, hm⟩
        · have hpe2 : loc.page = i0 := hpe
          rw [hpe2]
          exact hm
        · exact hm
      have hfi2 : firstPageIdx (shredRecordStore s loc) id = some i0 := by
        unfold shredRecordStore
        rw [firstPageIdx_setPageData]
        exact hfi
      have hsml : storeMatchList (shredRecordStore s loc) id key = rest := by
        unfold storeMatchList
        rw [hfi2]
        dsimp only
        rw [shredRecordStore_pages_length]
        exact storeListFrom_shred_head s key hwf (s.pages.length + 1) i0 loc len rest
          (by omega) hrange hlf
      have hrest : rest = storeListAfter s loc key :=
        storeListFrom_head_tail s key hwf (s.pages.length + 1) i0 none loc len rest
          (by omega) hlf
      have hafter := storeListAfter_shred_self s key hwf loc len hlp2 hpm hrange
      have hnext : findUnorderedNext (shredRecordStore s loc) loc key = rest.head? := by
        rw [findUnorderedNext_head, hafter, ← hrest]
      have hz : storeWordAt (shredRecordStore s loc) loc = 0 := by
        unfold storeWordAt
        have hgi : getPage (shredRecordStore s loc) loc.page =
            { getPage s loc.page with
              data := shredWordAt (getPage s loc.page).data loc.off } := by
          unfold shredRecordStore
          exact getPage_setPageData_self s loc.page _ hlp2
        rw [hgi]
        exact wordAt_shredWordAt_self _ _ hrange
      have hirS : ∀ e ∈ rest,
          e.1.off + 4 ≤ (getPage (shredRecordStore s loc) e.1.page).data.length := by
        intro e he
        have hes : e ∈ storeMatchList s id key := by
          rw [hhead]; exact List.mem_cons_of_mem _ he
        have hee := hir e hes
        rw [getPage_shredRecordStore_data_length]
        exact hee
      cases rest with
      | nil =>
        simp only [List.head?_nil] at hnext
        simp only [deleteLoop]
        rw [hnext]
        constructor
        · exact hsml
        · intro e he
          rw [hhead] at he
          rcases List.mem_cons.mp he with he1 | he1
          · subst he1
            exact hz
          · exact absurd he1 (List.not_mem_nil _)
      | cons e2 rest2 =>
        obtain ⟨loc2, len2⟩ := e2
        simp only [List.head?_cons] at hnext
        simp only [deleteLoop]
        rw [hnext]
        dsimp only
        have hwf2 := storeWf_shred s loc hwf hb
        have hb2 := bytesLt256_shred s loc hb
        have hlt2 : rest2.length < f := by
          simp only [List.length_cons] at hlt
          omega
        obtain ⟨c1, c2⟩ := ih (shredRecordStore s loc) loc2 len2 rest2 hwf2 hb2 hsml
          (by intro e he
              rw [hsml] at he
              exact hirS e he) hlt2
        constructor
        · exact c1
        · intro e he
          rw [hhead] at he
          rcases List.mem_cons.mp he with he1 | he1
          · subst he1
            exact deleteLoop_word_zero key f (shredRecordStore s loc) loc2 loc hz
          · have hcc := c2 e (by rw [hsml]; exact he1)
            exact hcc


/-- C8 (counterexample to the claim as stated): on a fixed page whose last
record slot ends exactly at the payload end, `Delete(77, 7)` returns true
and `FindUnorderedFirst(77, 7)` afterwards returns none, yet the record
with key 7 stored in that last slot is not shredded: its first word still
reads 7.  The search guard `rec + recordSize < pe` never enumerates the
boundary slot that `FindFree`'s `<=` guard handed out, so "shreds every
record with key K" fails. -/
theorem c8_delete_misses_boundary_record :
    (pageDelete exC8store 77 7).2 = true ∧
    wordAt (getPage (pageDelete exC8store 77 7).1 0).data 8 = 7 ∧
    findUnorderedFirst (pageDelete exC8store 77 7).1 77 7 = none := by decide

/-- C8 (amended): for a well-formed store (page shapes well formed, byte
values in range, no enumerated record straddling its page end),
`Page::Delete(P, K)` returns true iff the unordered enumeration reaches at
least one record with key K, it shreds (zeroes the first word of) every
record the enumeration reaches, and immediately afterwards
`FindUnorderedFirst(P, K)` returns none. -/
theorem c8_delete_shreds_all_enumerable (s : Store) (id key : Nat)
    (hwf : storeWf s) (hb : bytesLt256 s) (hir : matchesInRange s id key) :
    ((pageDelete s id key).2 = true ↔ storeMatchList s id key ≠ []) ∧
    (∀ e ∈ storeMatchList s id key, storeWordAt (pageDelete s id key).1 e.1 = 0) ∧
    findUnorderedFirst (pageDelete s id key).1 id key = none := by
  unfold pageDelete
  cases hf : findUnorderedFirst s id key with
  | none =>
    dsimp only
    cases hm : storeMatchList s id key with
    | cons a t =>
      exfalso
      rw [findUnorderedFirst_head, hm] at hf
      simp at hf
    | nil =>
      refine ⟨?_, ?_, ?_⟩
      · constructor
        · intro hfalse; exact absurd hfalse (by simp)
        · intro hne; exact absurd rfl hne
      · intro e he
        exact absurd he (List.not_mem_nil _)
      · exact hf
  | some r =>
    obtain ⟨loc, len⟩ := r
    dsimp only
    cases hm : storeMatchList s id key with
    | nil =>
      exfalso
      rw [findUnorderedFirst_head, hm] at hf
      simp at hf
    | cons a t =>
      have ha : a = (loc, len) := by
        rw [findUnorderedFirst_head, hm] at hf
        simp only [List.head?_cons] at hf
        injection hf
      subst ha
      obtain ⟨c1, c2⟩ := deleteLoop_clears id key (storeFuel s) s loc len t hwf hb hm
        (by intro e he; exact hir e he)
        (by
          have hl := storeMatchList_length_lt s id key
          rw [hm] at hl
          simp only [List.length_cons] at hl
          omega)
      refine ⟨?_, ?_, ?_⟩
      · constructor
        · intro _
          simp
        · intro _
          rfl
      · intro e he
        have hw := c2 e (by rw [hm]; exact he)
        unfold storeWordAt at hw ⊢
        rw [getPage_pages_congr (notifyStore (deleteLoop key (storeFuel s) s loc) id)
          (deleteLoop key (storeFuel s) s loc) (notifyStore_pages _ _)]
        exact hw
      · rw [findUnorderedFirst_head]
        rw [storeMatchList_pages_congr (notifyStore (deleteLoop key (storeFuel s) s loc) id)
          (deleteLoop key (storeFuel s) s loc) (notifyStore_pages _ _)]
        rw [c1]
        rfl

/-- C8 witness: the amended theorem applied to the boundary-slot store,
hypotheses checked by evaluation. -/
theorem c8_delete_shreds_all_enumerable_witness :
    storeWf exC8store ∧ bytesLt256 exC8store ∧ matchesInRange exC8store 77 7 ∧
      (((pageDelete exC8store 77 7).2 = true ↔ storeMatchList exC8store 77 7 ≠ []) ∧
        (∀ e ∈ storeMatchList exC8store 77 7,
          storeWordAt (pageDelete exC8store 77 7).1 e.1 = 0) ∧
        findUnorderedFirst (pageDelete exC8store 77 7).1 77 7 = none) :=
  ⟨by decide, by decide, by decide,
    c8_delete_shreds_all_enumerable exC8store 77 7 (by decide) (by decide) (by decide)⟩


/-! ### Add failure without mutation (no fresh page, unusable slot) -/

theorem addImplGo_noSpace (id firstWord : Nat) (rest : List Nat) (totalLength : Nat)
    (var noNotify : Bool) (fuel : Nat) (s : Store) (pIdx free : Option Nat)
    (hfp : s.freshPages = 0)
    (hneed : (match pIdx, free with
      | some i, some f =>
        decide (f + align4 totalLength > (getPage s i).data.length) ||
          (var && (getPage s i).recordSize != 0) ||
          (!var && (getPage s i).recordSize != 0 &&
            decide (align4 totalLength > (getPage s i).recordSize))
      | _, _ => true) = true) :
    addImplGo id firstWord rest totalLength var noNotify (fuel + 1) s pIdx free =
      (s, none) := by
  simp only [addImplGo]
  rw [hneed]
  rw [if_pos rfl]
  unfold storeNewPage
  rw [if_pos hfp]

theorem addImpl_noSpace (s : Store) (id firstWord : Nat) (rest : List Nat)
    (totalLength : Nat) (var noNotify : Bool)
    (hfp : s.freshPages = 0) (hneed : addNeedNew s id totalLength var = true) :
    addImpl s id firstWord rest totalLength var noNotify = (s, none) := by
  unfold addImpl
  rw [hfp]
  have h2 : (0 : Nat) + 2 = 1 + 1 := rfl
  rw [h2]
  apply addImplGo_noSpace
  · exact hfp
  · unfold addNeedNew at hneed
    exact hneed

/-- C9: if the unordered search finds the record with the key (and no
duplicate), the stored record differs from the new payload, and the
internal Add performed by Page::ReplaceImpl fails through the
out-of-space path (no fresh page can be allocated and the newest page has
no usable free slot), then Replace only appends the notification and
returns an invalid result: the pages are untouched, the old record is not
shredded, and the unordered search still returns it afterwards. -/
theorem c9_replace_add_failure_preserves_old
    (s : Store) (id key tl : Nat) (rest : List Nat) (var : Bool) (loc : Loc) (len0 : Nat)
    (h1 : findUnorderedFirst s id key = some (loc, len0))
    (h2 : findUnorderedNext s loc key = none)
    (hne : ¬ ((len0 = tl ∨ (¬(var = true) ∧ len0 > tl)) ∧
      (tl ≤ 4 ∨
        bytesEq (getPage s loc.page).data (loc.off + 4) (rest.take (tl - 4)) = true)))
    (hfp : s.freshPages = 0)
    (hneed : addNeedNew s id tl var = true) :
    replaceImpl s id key rest tl var = (notifyStore s id, none) ∧
    findUnorderedFirst (replaceImpl s id key rest tl var).1 id key = some (loc, len0) := by
  have hmain : replaceImpl s id key rest tl var = (notifyStore s id, none) := by
    unfold replaceImpl
    rw [h1, storeFuel_succ]
    dsimp only
    rw [replaceDupLoop_unique key _ s (loc, len0) h2]
    dsimp only
    rw [if_neg hne]
    rw [addImpl_noSpace s id key rest tl var true hfp hneed]
  refine ⟨hmain, ?_⟩
  rw [hmain]
  rw [findUnorderedFirst_head]
  rw [storeMatchList_pages_congr (notifyStore s id) s (notifyStore_pages s id)]
  rw [← findUnorderedFirst_head]
  exact h1

/-- C9 witness: replacing the sole record of a full variable page (no
fresh pages left) with a longer payload fails the internal Add; the store
pages are unchanged, and the old record is still found. -/
theorem c9_replace_add_failure_preserves_old_witness :
    replaceImpl exOneRec 77 7 [9, 9, 9, 9, 9, 9, 9, 9] 12 true =
      (notifyStore exOneRec 77, none) ∧
    findUnorderedFirst (replaceImpl exOneRec 77 7 [9, 9, 9, 9, 9, 9, 9, 9] 12 true).1 77 7 =
      some (⟨0, 4⟩, 8) :=
  c9_replace_add_failure_preserves_old exOneRec 77 7 12 [9, 9, 9, 9, 9, 9, 9, 9] true
    ⟨0, 4⟩ 8 (by decide) (by decide) (by decide) (by decide) (by decide)

end Nvram
